import Mathlib

/-
Verification development for the repository-context analyzer
(pr_agent/algo/repo_context.py) and its TTL cache
(pr_agent/algo/repo_context_cache.py).

The Python code is shallowly embedded as executable Lean definitions.
Paths are strings with "/" separators (POSIX, so os.sep = "/" and the
".replace(os.sep, '/')" calls in the source are identity maps).
Filesystem reads, directory listings, clone results and the output of the
regular-expression import scanners are supplied through an environment
record: each such field models the value the corresponding Python call
returns for a given input.  Python dicts keyed by strings are modelled as
association lists in insertion order; Python sets as duplicate-free lists.
Python exceptions that can actually be raised inside the analyzer (the
IndexError on an empty basename in _extract_naming_conventions) are
modelled with Except; `none` models the empty dict {} that
get_repository_context returns when disabled or when its top-level
handler catches an exception.  The cache's float TTL is modelled as a
rational number, and Python's int() truncation as pyInt.
-/

/- ---------- Path helpers mirroring posixpath ---------- -/

/-- Split a character list on every slash, exactly like Python's
str.split("/") (empty pieces are kept). -/
def splitSlashAux : List Char → List Char → List (List Char)
  | cur, [] => [cur.reverse]
  | cur, c :: t => if c = '/' then cur.reverse :: splitSlashAux [] t else splitSlashAux (c :: cur) t

/-- Python str.split("/") on strings. -/
def splitSlash (s : String) : List String := (splitSlashAux [] s.data).map String.mk

/-- Python str.lower() (ASCII; the source only compares ASCII paths). -/
def lowerStr (s : String) : String := String.mk (s.data.map Char.toLower)

/-- Characters of a path after the last slash (posixpath.basename). -/
def basenameChars (l : List Char) : List Char := (l.reverse.takeWhile (fun c => !(c == '/'))).reverse

/-- posixpath.basename. -/
def basename (s : String) : String := String.mk (basenameChars s.data)

/-- posixpath.dirname: the prefix up to the last slash, with trailing
slashes stripped unless the head is all slashes. -/
def dirnameChars (l : List Char) : List Char :=
  let head := (l.reverse.dropWhile (fun c => !(c == '/'))).reverse
  if head = [] then []
  else if head.all (fun c => c == '/') then head
  else (head.reverse.dropWhile (fun c => c == '/')).reverse

/-- posixpath.dirname. -/
def dirname (s : String) : String := String.mk (dirnameChars s.data)

/-- posixpath.splitext on character lists: split off the extension at the
last dot of the basename, unless all basename characters before that dot
are themselves dots. -/
def splitextChars (l : List Char) : List Char × List Char :=
  let rev := l.reverse
  let afterDot := rev.takeWhile (fun c => !(c == '.') && !(c == '/'))
  let rest := rev.drop afterDot.length
  match rest with
  | '.' :: pre =>
    if (pre.takeWhile (fun c => !(c == '/'))).any (fun c => !(c == '.')) then
      (l.take (l.length - (afterDot.length + 1)), '.' :: afterDot.reverse)
    else (l, [])
  | _ => (l, [])

/-- posixpath.splitext. -/
def splitext (s : String) : String × String :=
  let p := splitextChars s.data
  (String.mk p.1, String.mk p.2)

/-- posixpath.join restricted to two components, as used by the source. -/
def joinPath (a b : String) : String :=
  if b.data.head? = some '/' then b
  else if a.data = [] ∨ a.data.getLast? = some '/' then a ++ b
  else a ++ "/" ++ b

/-- One step of posixpath.normpath's component loop. -/
def normStep (initSlash : Bool) (acc : List (List Char)) (comp : List Char) : List (List Char) :=
  if comp = [] ∨ comp = ['.'] then acc
  else if comp ≠ ['.', '.'] ∨ (¬ initSlash ∧ acc = []) ∨ (acc ≠ [] ∧ acc.getLast? = some ['.', '.']) then
    acc ++ [comp]
  else if acc ≠ [] then acc.dropLast else acc

/-- posixpath.normpath on character lists. -/
def normpathChars (l : List Char) : List Char :=
  if l = [] then ['.']
  else
    let initSlash : Bool := l.head? = some '/'
    let dblSlash : Bool := l.take 2 = ['/', '/'] ∧ l.take 3 ≠ ['/', '/', '/']
    let comps := splitSlashAux [] l
    let newComps := comps.foldl (normStep initSlash) []
    let joined := List.intercalate ['/'] newComps
    let joined := if initSlash then (if dblSlash then ['/', '/'] else ['/']) ++ joined else joined
    if joined = [] then ['.'] else joined

/-- posixpath.normpath. -/
def normpath (s : String) : String := String.mk (normpathChars s.data)

/-- Worker for pyReplace (left-to-right, non-overlapping replacement).
The Nat is recursion fuel, always called with the input's length, so the
exhaustion branch is unreachable; it only makes the recursion structural. -/
def pyReplaceAux (pat rep : List Char) : Nat → List Char → List Char
  | _, [] => []
  | 0, l => l
  | fuel + 1, c :: t =>
    if pat.isPrefixOf (c :: t) then rep ++ pyReplaceAux pat rep fuel (t.drop (pat.length - 1))
    else c :: pyReplaceAux pat rep fuel t

/-- Python str.replace for a non-empty pattern (every call site in the
source passes a non-empty literal pattern). -/
def pyReplace (s pat rep : String) : String :=
  if pat.data = [] then s else String.mk (pyReplaceAux pat.data rep.data s.data.length s.data)

/-- Python's substring test `needle in hay` on character lists. -/
def occursIn (n : List Char) : List Char → Bool
  | [] => n.isEmpty
  | c :: t => n.isPrefixOf (c :: t) || occursIn n t

/-- Python str.replace(".", "/") (single-character pattern). -/
def replaceDotSlash (s : String) : String :=
  String.mk (s.data.map (fun c => if c = '.' then '/' else c))

/- ---------- Set / dict helpers ---------- -/

/-- Append an element to a duplicate-free list unless already present
(models adding to a Python set, in first-insertion order). -/
def insertUniq (l : List String) (x : String) : List String := if x ∈ l then l else l ++ [x]

/-- Set union (results.update(...)), keeping first-insertion order. -/
def unionL (a b : List String) : List String := b.foldl insertUniq a

/-- Deduplicate a list, keeping first occurrences (models set(list)). -/
def dedupL (l : List String) : List String := l.foldl insertUniq []

/-- Insert into a sorted list of strings. -/
def insertSorted (x : String) : List String → List String
  | [] => [x]
  | y :: t => if x < y then x :: y :: t else y :: insertSorted x t

/-- Python sorted(...) over strings. -/
def sortStrs (l : List String) : List String := l.foldr insertSorted []

/-- Dict lookup with default empty list: m.get(k, set()). -/
def lookupD (m : List (String × List String)) (k : String) : List String :=
  match m.find? (fun e => e.1 == k) with
  | some e => e.2
  | none => []

/-- defaultdict(list) append: modules[module].append(file). -/
def addToGroup (m : List (String × List String)) (k v : String) : List (String × List String) :=
  match m with
  | [] => [(k, [v])]
  | e :: t => if e.1 = k then (e.1, e.2 ++ [v]) :: t else e :: addToGroup t k v

/-- dict.setdefault(k, set()).add(v). -/
def addToMapSet (m : List (String × List String)) (k v : String) : List (String × List String) :=
  match m with
  | [] => [(k, [v])]
  | e :: t => if e.1 = k then (e.1, insertUniq e.2 v) :: t else e :: addToMapSet t k v

/-- defaultdict(int) increment: ext_count[lang] += 1, in insertion order. -/
def bumpCount : List (String × Nat) → String → List (String × Nat)
  | [], k => [(k, 1)]
  | e :: t, k => if e.1 = k then (e.1, e.2 + 1) :: t else e :: bumpCount t k

/-- Python max(dict, key=dict.get): scan in insertion order keeping the
first key whose count is strictly greater than the current best. -/
def maxLoop (bk : String) (bv : Nat) : List (String × Nat) → String
  | [] => bk
  | e :: t => if e.2 > bv then maxLoop e.1 e.2 t else maxLoop bk bv t

/-- Maximum of a list of naturals. -/
def listMax (l : List Nat) : Nat := l.foldl max 0

/-- Count lookup with default 0 in an association list. -/
def lookupCnt (m : List (String × Nat)) (k : String) : Nat :=
  match m.find? (fun e => e.1 == k) with
  | some e => e.2
  | none => 0

/-- First key in list order whose count equals the maximum count. -/
def firstMaxKey (l : List (String × Nat)) : Option String :=
  (l.find? (fun e => e.2 == listMax (l.map Prod.snd))).map Prod.fst

/- ---------- Data model ---------- -/

/-- The related_files dict built by _get_related_files. -/
structure RelatedFiles where
  test_files : List String
  config_files : List String
  documentation_files : List String
  imported_by : List String
  imports_from : List String
deriving DecidableEq

/-- The dict built by _identify_architectural_patterns. -/
structure ArchPatterns where
  layers : List String
  architecture_type : String
  module_organization : List (String × List String)
deriving DecidableEq

/-- The dict built by _extract_naming_conventions. -/
structure NamingConventions where
  file_naming : String
  directory_naming : String
deriving DecidableEq

/-- The dict built by _get_language_conventions. -/
structure LanguageConventions where
  primary_language : String
  naming_conventions : NamingConventions
  import_style : String
deriving DecidableEq

/-- The dict built by _analyze_dependencies_impact. -/
structure DependenciesImpact where
  modified_dependencies : List String
  affected_modules : List String
  breaking_changes_risk : String
deriving DecidableEq

/-- The dict built by _extract_code_patterns. -/
structure CodePatternsInfo where
  uses_decorators : Bool
  uses_interfaces : Bool
  uses_inheritance : Bool
  testing_framework : String
  logging_approach : String
deriving DecidableEq

/-- The context dict assembled by get_repository_context.  A sub-dict that
the code replaces by {} after catching an exception is modelled as an
Option (none = {}). -/
structure RepoContext where
  related_files : Option RelatedFiles
  architectural_patterns : Option ArchPatterns
  language_specific_conventions : Option LanguageConventions
  dependencies_impact : Option DependenciesImpact
  code_patterns : Option CodePatternsInfo
  similar_implementations : List String
deriving DecidableEq

/-- Environment of one analysis call.  enabled models the
repo_context_enabled configuration flag; rootHasInit models whether
os.listdir(git_provider.repo_dir or ".") contains "__init__.py"
(False when listing raises); readFile models reading an absolute path
(empty string on any failure); pyImportSpecs and jsImportSpecs model the
module specifiers the source's regular expressions extract from a file's
contents (the two Python patterns, resp. the three JS/require patterns). -/
structure AnalyzerEnv where
  enabled : Bool
  rootHasInit : Bool
  readFile : String → String
  pyImportSpecs : String → List String
  jsImportSpecs : String → List String

/-- Provider-level environment: repoPath models
getattr(git_provider, "repo_path", None) with "" for absent/falsy,
gitRepoUrl models get_git_repo_url, isDir models os.path.isdir,
listFiles models _list_repo_files at a given root (the bounded walk),
and clone models git_provider.clone returning the clone's path or None. -/
structure ProviderEnv extends AnalyzerEnv where
  repoPath : String
  gitRepoUrl : String → String
  isDir : String → Bool
  listFiles : String → List String
  clone : String → Option String

/-- One parsed cache record {ts, context}; a missing JSON field is None. -/
structure CacheRecord where
  ts : Option Int
  context : Option String
deriving DecidableEq

deriving instance DecidableEq for Except

/- ---------- RepoContextAnalyzer ---------- -/

/-- _file_exists_in_repo: membership in the repo file set, False when the
set was never populated. -/
def file_exists_in_repo (S : Option (List String)) (p : String) : Bool :=
  match S with
  | some files => files.contains p
  | none => false

/-- The src/lib/main test-directory loop of _find_test_file: at each path
part equal to "src", "lib" or "main", try parts[:i] + ["test",
"__tests__", "tests"] + parts[i:]. -/
def find_test_dir_candidate (ex : String → Bool) : List String → List String → Option String
  | _, [] => none
  | pre, p :: rest =>
    if p = "src" ∨ p = "lib" ∨ p = "main" then
      let cand := String.intercalate "/" (pre ++ ["test", "__tests__", "tests"] ++ p :: rest)
      if ex cand then some cand
      else find_test_dir_candidate ex (pre ++ [p]) rest
    else find_test_dir_candidate ex (pre ++ [p]) rest

/-- _find_test_file (the ext component of each pattern pair is unused by
the source loop and therefore omitted). -/
def find_test_file (ex : String → Bool) (source_file : String) : Option String :=
  let pats : List String := [
    pyReplace source_file ".py" "_test.py",
    pyReplace source_file ".py" ".test.py",
    pyReplace source_file ".js" ".test.js",
    pyReplace source_file ".ts" ".test.ts",
    pyReplace source_file ".ts" ".spec.ts"]
  match pats.find? (fun t => t != source_file && ex t) with
  | some t => some t
  | none => find_test_dir_candidate ex [] (splitSlash source_file)

/-- The fixed config-file candidates of _find_affected_config_files. -/
def config_patterns : List String :=
  ["setup.py", "pyproject.toml", "requirements.txt", "package.json", "tsconfig.json",
   "webpack.config.js", ".env", "docker-compose.yml", "Dockerfile", "Makefile", "CMakeLists.txt"]

/-- _find_affected_config_files. -/
def find_affected_config_files (ex : String → Bool) : List String :=
  config_patterns.filter ex

/-- _find_related_docs. -/
def find_related_docs (ex : String → Bool) (modified_files : List String) : List String :=
  (modified_files.foldl (fun acc file =>
    let base := (splitext file).1
    acc ++ ([".md", ".rst", ".txt"].filter (fun e => ex (base ++ e))).map (fun e => base ++ e)) [])
  ++ (["README.md", "CHANGELOG.md", "docs/index.md"].filter ex)

/-- The fixed layer-indicator table of _detect_layers. -/
def layer_indicators : List (String × List String) :=
  [("models", ["models/", "model.py", "entities/"]),
   ("views", ["views/", "view.py", "ui/", "templates/"]),
   ("controllers", ["controllers/", "controller.py", "handlers/", "handlers.py"]),
   ("services", ["services/", "service.py", "business/"]),
   ("repositories", ["repositories/", "repository.py", "repos/", "data/"]),
   ("middleware", ["middleware/", "middlewares/"]),
   ("utils", ["utils/", "util.py", "helpers/"])]

/-- _detect_layers (the Python set's iteration order is modelled as
first-insertion order). -/
def detect_layers (repo_files : List String) : List String :=
  repo_files.foldl (fun acc file =>
    layer_indicators.foldl (fun acc li =>
      if li.2.any (fun pat => occursIn pat.data file.data) then insertUniq acc li.1 else acc) acc) []

/-- _detect_architecture_type; root_has_init is _detect_module_based(). -/
def detect_architecture_type (repo_files : List String) (root_has_init : Bool) : String :=
  if repo_files.any (fun f => occursIn "service".data f.data) &&
     repo_files.any (fun f => occursIn "api".data f.data) then "microservices"
  else if (["models", "views", "controllers"] : List String).any (fun l => repo_files.contains l) then "mvc"
  else if root_has_init then "modular"
  else "monolithic"

/-- _analyze_module_organization. -/
def analyze_module_organization (repo_files : List String) : List (String × List String) :=
  repo_files.foldl (fun m file =>
    let parts := splitSlash file
    if parts.length > 1 then addToGroup m (parts.headD "") file else m) []

/-- _identify_architectural_patterns (its body cannot raise: the only
I/O, _detect_module_based, swallows its own exceptions). -/
def identify_architectural_patterns (env : AnalyzerEnv) (repo_files : List String) : ArchPatterns :=
  ⟨detect_layers repo_files,
   detect_architecture_type repo_files env.rootHasInit,
   analyze_module_organization repo_files⟩

/-- The fixed extension-to-language table of _detect_primary_language, in
declaration order. -/
def language_map : List (String × String) :=
  [(".py", "python"), (".js", "javascript"), (".ts", "typescript"), (".java", "java"),
   (".go", "go"), (".rs", "rust"), (".cpp", "cpp"), (".cs", "csharp")]

/-- Language of a file by extension, if the extension is in the table. -/
def langOf (f : String) : Option String :=
  (language_map.find? (fun e => e.1 == (splitext f).2)).map (fun e => e.2)

/-- The ext_count defaultdict of _detect_primary_language, in insertion
order. -/
def langCounts (repo_files : List String) : List (String × Nat) :=
  repo_files.foldl (fun acc f =>
    match langOf f with
    | some lang => bumpCount acc lang
    | none => acc) []

/-- _detect_primary_language. -/
def detect_primary_language (repo_files : List String) : String :=
  match langCounts repo_files with
  | [] => "unknown"
  | e :: t => maxLoop e.1 e.2 t

/-- Count of files whose basename contains an underscore. -/
def snakeCount (repo_files : List String) : Nat :=
  (repo_files.filter (fun f => occursIn "_".data (basename f).data)).length

/-- Count of files whose basename contains a hyphen. -/
def kebabCount (repo_files : List String) : Nat :=
  (repo_files.filter (fun f => occursIn "-".data (basename f).data)).length

/-- os.path.basename(f)[0].islower() and any(c.isupper() for c in
os.path.basename(f)); indexing [0] raises IndexError when the basename is
empty. -/
def camelFlag (f : String) : Except Unit Bool :=
  match (basename f).data with
  | [] => Except.error ()
  | c :: rest => Except.ok (c.isLower && (c :: rest).any (fun ch => ch.isUpper))

/-- The camel-case sum of _extract_naming_conventions; propagates the
IndexError of any empty basename. -/
def camelCountE : List String → Except Unit Nat
  | [] => Except.ok 0
  | f :: t =>
    match camelFlag f with
    | Except.error e => Except.error e
    | Except.ok b =>
      match camelCountE t with
      | Except.error e => Except.error e
      | Except.ok n => Except.ok (if b then n + 1 else n)

/-- _extract_naming_conventions (no exception handler of its own). -/
def extract_naming_conventions (repo_files : List String) : Except Unit NamingConventions :=
  let snake := snakeCount repo_files
  let kebab := kebabCount repo_files
  match camelCountE repo_files with
  | Except.error e => Except.error e
  | Except.ok camel =>
    Except.ok ⟨if snake > kebab ∧ snake > camel then "snake_case"
               else if kebab > snake then "kebab_case"
               else if camel > 0 then "camelCase"
               else "unknown",
               "unknown"⟩

/-- _detect_import_style. -/
def detect_import_style (_repo_files : List String) : String := "mixed"

/-- _get_language_conventions (no exception handler of its own; the dict
values are evaluated in order, primary language first). -/
def get_language_conventions (repo_files : List String) : Except Unit LanguageConventions :=
  let primary := detect_primary_language repo_files
  match extract_naming_conventions repo_files with
  | Except.error e => Except.error e
  | Except.ok nc => Except.ok ⟨primary, nc, detect_import_style repo_files⟩

/-- The fixed manifest-filename list of _analyze_dependencies_impact. -/
def dependency_files : List String :=
  ["requirements.txt", "package.json", "pyproject.toml", "Gemfile", "go.mod"]

/-- _analyze_dependencies_impact. -/
def analyze_dependencies_impact (modified_files : List String) : DependenciesImpact :=
  modified_files.foldl (fun imp file =>
    if dependency_files.contains (basename file) then
      ⟨imp.modified_dependencies ++ [file], imp.affected_modules, "high"⟩
    else imp) ⟨[], [], "low"⟩

/-- _detect_testing_framework. -/
def detect_testing_framework (repo_files : List String) : String :=
  if repo_files.any (fun f => occursIn "test".data (lowerStr f).data) then "detected" else "unknown"

/-- _extract_code_patterns. -/
def extract_code_patterns (repo_files : List String) : CodePatternsInfo :=
  ⟨false, false, false, detect_testing_framework repo_files, "standard"⟩

/-- _find_similar_implementations (placeholder in the source). -/
def find_similar_implementations (_repo_files : List String) : List String := []

/- ---------- Import resolution ---------- -/

/-- _is_import_scannable. -/
def is_import_scannable (f : String) : Bool :=
  ([".py", ".js", ".ts", ".jsx", ".tsx", ".mjs", ".cjs"] : List String).contains (splitext f).2

/-- _filter_existing_candidates (on POSIX the os.sep normalisation is the
identity; the set comprehension is modelled by dedup + filter). -/
def filter_existing_candidates (S : Option (List String)) (cands : List String) : List String :=
  match S with
  | none => []
  | some files => if files = [] then [] else (dedupL cands).filter (fun c => files.contains c)

/-- Apply dirname n times (the walk-up loop of _resolve_python_module). -/
def iterDirname : String → Nat → String
  | d, 0 => d
  | d, n + 1 => iterDirname (dirname d) n

/-- _resolve_python_module. -/
def resolve_python_module (S : Option (List String)) (file_path module_name : String) : List String :=
  if module_name = "" then []
  else
    let base_dir := dirname file_path
    let target_dir :=
      if module_name.data.head? = some '.' then
        let leading := (module_name.data.takeWhile (fun c => c == '.')).length
        let rel_module := String.mk (module_name.data.dropWhile (fun c => c == '.'))
        let t := iterDirname base_dir (leading - 1)
        if rel_module ≠ "" then normpath (joinPath t (replaceDotSlash rel_module))
        else normpath t
      else replaceDotSlash module_name
    filter_existing_candidates S [target_dir ++ ".py", joinPath target_dir "__init__.py"]

/-- _resolve_python_imports, with the specifiers the two regular
expressions extract supplied by the environment. -/
def resolve_python_imports (env : AnalyzerEnv) (S : Option (List String))
    (file_path contents : String) : List String :=
  (env.pyImportSpecs contents).foldl (fun acc m => unionL acc (resolve_python_module S file_path m)) []

/-- The JS extension trial order of _resolve_js_module. -/
def js_exts : List String := [".js", ".ts", ".jsx", ".tsx", ".mjs", ".cjs"]

/-- _resolve_js_module. -/
def resolve_js_module (S : Option (List String)) (file_path module_name : String) : List String :=
  if module_name.data.head? = some '.' then
    let base_dir := dirname file_path
    let rel_path := normpath (joinPath base_dir module_name)
    let cands :=
      if (splitext rel_path).2 ≠ "" then [rel_path]
      else (js_exts.map (fun e => rel_path ++ e)) ++ (js_exts.map (fun e => rel_path ++ "/index" ++ e))
    filter_existing_candidates S cands
  else []

/-- _resolve_js_imports, with the regex-extracted specifiers supplied by
the environment. -/
def resolve_js_imports (env : AnalyzerEnv) (S : Option (List String))
    (file_path contents : String) : List String :=
  (env.jsImportSpecs contents).foldl (fun acc m => unionL acc (resolve_js_module S file_path m)) []

/-- _resolve_imports: dispatch on the extension. -/
def resolve_imports (env : AnalyzerEnv) (S : Option (List String))
    (file_path contents : String) : List String :=
  if (splitext file_path).2 = ".py" then resolve_python_imports env S file_path contents
  else resolve_js_imports env S file_path contents

/-- _read_repo_file: empty when no repo root is set, otherwise the
environment's view of the joined absolute path. -/
def read_repo_file (env : AnalyzerEnv) (repo_root : Option String) (rel_path : String) : String :=
  match repo_root with
  | none => ""
  | some r => if r = "" then "" else env.readFile (joinPath r rel_path)

/-- One iteration of the repo-file loop of _populate_import_relationships. -/
def importStep (env : AnalyzerEnv) (root : Option String) (files : List String)
    (acc : List (String × List String) × List (String × List String)) (rf : String) :
    List (String × List String) × List (String × List String) :=
  if ¬ is_import_scannable rf then acc
  else
    let contents := read_repo_file env root rf
    if contents = "" then acc
    else
      let resolved := resolve_imports env (some files) rf contents
      if resolved = [] then acc
      else (acc.1 ++ [(rf, resolved)], resolved.foldl (fun m tgt => addToMapSet m tgt rf) acc.2)

/-- _populate_import_relationships, returning the final
(imports_from, imported_by) lists it assigns into related_files (the
early return leaves the initial empty lists in place). -/
def populate_import_relationships (env : AnalyzerEnv) (root : Option String)
    (S : Option (List String)) (modified_files : List String) : List String × List String :=
  if root.getD "" = "" then ([], [])
  else match S with
  | none => ([], [])
  | some files =>
    if files = [] then ([], [])
    else
      let repoFiles := dedupL files
      let maps := repoFiles.foldl (importStep env root files) ([], [])
      (sortStrs (modified_files.foldl (fun acc f => unionL acc (lookupD maps.1 f)) []),
       sortStrs (modified_files.foldl (fun acc f => unionL acc (lookupD maps.2 f)) []))

/-- _get_related_files (its body cannot raise in this model, so the
surrounding try/except never fires). -/
def get_related_files (env : AnalyzerEnv) (root : Option String) (S : Option (List String))
    (modified_files : List String) : RelatedFiles :=
  let ex := file_exists_in_repo S
  let test_files := modified_files.foldl (fun acc f =>
    match find_test_file ex f with
    | some t => acc ++ [t]
    | none => acc) []
  let rel := populate_import_relationships env root S modified_files
  ⟨test_files, find_affected_config_files ex, find_related_docs ex modified_files, rel.2, rel.1⟩

/-- analysis_files = repo_files or modified_files. -/
def analysisFilesOf (modified_files : List String) (repo_files : Option (List String)) : List String :=
  match repo_files with
  | some l => if l = [] then modified_files else l
  | none => modified_files

/-- _set_repo_files(repo_files or []): the stored set is None unless the
list is non-empty. -/
def fileSetOf (repo_files : Option (List String)) : Option (List String) :=
  match repo_files with
  | some l => if l = [] then none else some l
  | none => none

/-- get_repository_context.  none models the empty dict {} returned both
when the feature flag is disabled and when the top-level handler catches
an exception raised by a sub-analysis (here: only the language-convention
step can raise). -/
def get_repository_context (env : AnalyzerEnv) (modified_files : List String)
    (repo_files : Option (List String)) (repo_root : Option String) : Option RepoContext :=
  if env.enabled = false then none
  else
    let analysis_files := analysisFilesOf modified_files repo_files
    let S := fileSetOf repo_files
    let related := get_related_files env repo_root S modified_files
    let arch := identify_architectural_patterns env analysis_files
    match get_language_conventions analysis_files with
    | Except.error _ => none
    | Except.ok conv =>
      some ⟨some related, some arch, some conv,
            some (analyze_dependencies_impact modified_files),
            some (extract_code_patterns analysis_files),
            find_similar_implementations analysis_files⟩

/- ---------- RepositoryContextProvider ---------- -/

/-- get_repo_root_from_provider. -/
def get_repo_root_from_provider (env : ProviderEnv) (pr_url : Option String) : Option String :=
  if env.repoPath ≠ "" then some env.repoPath
  else
    let repo_url := match pr_url with
      | some u => if u = "" then "" else env.gitRepoUrl u
      | none => ""
    if repo_url ≠ "" then some repo_url else none

/-- ", ".join(...). -/
def joinComma (l : List String) : String := String.intercalate ", " l

/-- The Related Files block of _format_context (only the three name-based
lists are ever printed; the dict itself is non-empty, hence truthy,
whenever _get_related_files succeeded). -/
def relatedParts (rf : Option RelatedFiles) : List String :=
  match rf with
  | none => []
  | some r =>
    ["## Related Files"]
    ++ (if r.test_files ≠ [] then ["- Test files: " ++ joinComma r.test_files] else [])
    ++ (if r.config_files ≠ [] then ["- Config files: " ++ joinComma r.config_files] else [])
    ++ (if r.documentation_files ≠ [] then ["- Documentation: " ++ joinComma r.documentation_files] else [])
    ++ [""]

/-- The Architecture block of _format_context. -/
def archParts (ap : Option ArchPatterns) : List String :=
  match ap with
  | none => []
  | some p =>
    ["## Architecture"]
    ++ (if p.architecture_type ≠ "" then ["- Type: " ++ p.architecture_type] else [])
    ++ (if p.layers ≠ [] then ["- Layers: " ++ joinComma p.layers] else [])
    ++ [""]

/-- The Code Conventions block of _format_context. -/
def convParts (lc : Option LanguageConventions) : List String :=
  match lc with
  | none => []
  | some c =>
    ["## Code Conventions"]
    ++ (if c.primary_language ≠ "" then ["- Language: " ++ c.primary_language] else [])
    ++ (if c.naming_conventions.file_naming ≠ "" then
          ["- File naming: " ++ c.naming_conventions.file_naming] else [])
    ++ [""]

/-- The Dependencies block of _format_context (the header itself is
guarded by the modified_dependencies check). -/
def depsParts (di : Option DependenciesImpact) : List String :=
  match di with
  | none => []
  | some impact =>
    if impact.modified_dependencies ≠ [] then
      ["## Dependencies Modified",
       "- " ++ joinComma impact.modified_dependencies,
       "- Breaking changes risk: " ++ impact.breaking_changes_risk,
       ""]
    else []

/-- The Code Patterns block of _format_context. -/
def codePatternParts (cp : Option CodePatternsInfo) : List String :=
  match cp with
  | none => []
  | some p =>
    ["## Code Patterns"]
    ++ (if p.testing_framework ≠ "" then ["- Testing: " ++ p.testing_framework] else [])
    ++ [""]

/-- The parts list that _format_context accumulates before joining. -/
def format_context_parts (ctx : RepoContext) : List String :=
  ["# Repository Context\n"]
  ++ relatedParts ctx.related_files
  ++ archParts ctx.architectural_patterns
  ++ convParts ctx.language_specific_conventions
  ++ depsParts ctx.dependencies_impact
  ++ codePatternParts ctx.code_patterns

/-- _format_context: "\n".join(parts). -/
def format_context (ctx : RepoContext) : String :=
  String.intercalate "\n" (format_context_parts ctx)

/-- get_context_str. -/
def get_context_str (env : ProviderEnv) (modified_files : List String) (pr_url : Option String) : String :=
  if env.enabled = false then ""
  else
    let ctx :=
      match get_repo_root_from_provider env pr_url with
      | some root =>
        if env.isDir root then
          let repo_files := env.listFiles root
          get_repository_context env.toAnalyzerEnv modified_files
            (if repo_files = [] then none else some repo_files) (some root)
        else
          match env.clone root with
          | none => get_repository_context env.toAnalyzerEnv modified_files none none
          | some path =>
            let repo_files := env.listFiles path
            get_repository_context env.toAnalyzerEnv modified_files
              (if repo_files = [] then none else some repo_files) (some path)
      | none => get_repository_context env.toAnalyzerEnv modified_files none none
    match ctx with
    | none => ""
    | some c => format_context c

/- ---------- ContextCache ---------- -/

/-- Python int(): truncation toward zero, on the rational model of the
float TTL (Int division already truncates toward zero). -/
def pyInt (q : ℚ) : Int := Int.tdiv q.num (q.den : Int)

/-- get_cached_context for one repository identity.  The state is the
Option of the parsed record behind that repository's cache file (none:
file absent or unreadable); the result pairs the returned value with the
state of that file after the call. -/
def get_cached_context (enabled : Bool) (ttl_hours : ℚ) (now : Int)
    (store : Option CacheRecord) : Option String × Option CacheRecord :=
  if enabled = false then (none, store)
  else match store with
  | none => (none, store)
  | some data =>
    if ttl_hours ≤ 0 then (none, store)
    else
      let expires_at := data.ts.getD 0 + pyInt (ttl_hours * 3600)
      if expires_at < now then (none, none)
      else
        let c := data.context.getD ""
        if c = "" then (none, store) else (some c, store)

/- ---------- Specification-side definitions and concrete examples ---------- -/

/-- Number of files mapping to a given language through the extension
table. -/
def countLang (files : List String) (l : String) : Nat :=
  (files.filter (fun f => langOf f == some l)).length

/-- Primary-language selection as the claim words it: frequency count,
ties broken by the declaration order of the extension table
(first-declared language wins). -/
def specPrimaryLanguageTableOrder (files : List String) : String :=
  let present := (language_map.map (fun e => e.2)).filter (fun l => countLang files l > 0)
  match present with
  | [] => "unknown"
  | _ :: _ =>
    let m := listMax (present.map (countLang files))
    (present.find? (fun l => countLang files l == m)).getD "unknown"

/-- Languages in order of their first occurrence in the file list. -/
def firstSeenLangs (files : List String) : List String :=
  files.foldl (fun acc f =>
    match langOf f with
    | some l => insertUniq acc l
    | none => acc) []

/-- Primary-language selection as the code actually behaves: frequency
count, ties broken by the order in which languages are first encountered
in the file list. -/
def specPrimaryLanguageFirstSeen (files : List String) : String :=
  match firstSeenLangs files with
  | [] => "unknown"
  | ls@(_ :: _) =>
    let m := listMax (ls.map (countLang files))
    (ls.find? (fun l => countLang files l == m)).getD "unknown"

/-- File-naming selection as the claim words it: the majority count wins;
a tie for the maximum yields "unknown". -/
def majorityPick (s k c : Nat) : String :=
  if s > k ∧ s > c then "snake_case"
  else if k > s ∧ k > c then "kebab_case"
  else if c > s ∧ c > k then "camelCase"
  else "unknown"

/-- The claim-side naming-convention detector (same three counters as the
code, majority selection). -/
def specFileNamingMajority (files : List String) : Option String :=
  match camelCountE files with
  | Except.error _ => none
  | Except.ok c => some (majorityPick (snakeCount files) (kebabCount files) c)

/-- A formatted part is a section header iff it starts with "##". -/
def isHeaderLine (s : String) : Bool := s.data.take 2 = ['#', '#']

/-- A formatted part is a content line iff it starts with "- ". -/
def isContentLine (s : String) : Bool := s.data.take 2 = ['-', ' ']

/-- Headers that the amended claim requires to be followed by content
(every section header except Related Files). -/
def needsContent (s : String) : Bool := isHeaderLine s && s != "## Related Files"

/-- The claimed property: every section header is immediately followed by
a content line. -/
def headersOkStrict : List String → Bool
  | [] => true
  | p :: rest =>
    (!(isHeaderLine p) || (match rest.head? with | some q => isContentLine q | none => false))
    && headersOkStrict rest

/-- The amended property: every section header other than Related Files
is immediately followed by a content line. -/
def headersOkLenient : List String → Bool
  | [] => true
  | p :: rest =>
    (!(needsContent p) || (match rest.head? with | some q => isContentLine q | none => false))
    && headersOkLenient rest

/-- A parts list whose final element, if any, is not a header that
requires content (so it can be safely followed by anything). -/
def endsSafe (l : List String) : Prop := ∀ p, l.getLast? = some p → needsContent p = false

/-- A trivial enabled analyzer environment: every file read fails, the
regex scanners find nothing, the repository root has no __init__.py. -/
def envPlain : AnalyzerEnv := ⟨true, false, fun _ => "", fun _ => [], fun _ => []⟩

/-- Enabled environment in which file /r/a.py reads "import b" and the
Python import regex extracts the specifier "b" from that text. -/
def envImport : AnalyzerEnv :=
  ⟨true, false, fun p => if p = "/r/a.py" then "import b" else "",
   fun c => if c = "import b" then ["b"] else [], fun _ => []⟩

/-- A provider environment with the repo_context_enabled flag off. -/
def envOff : ProviderEnv :=
  ⟨⟨false, true, fun _ => "x", fun _ => ["y"], fun _ => ["z"]⟩,
   "/repo", fun _ => "url", fun _ => true, fun _ => ["f.py"], fun _ => some "/tmp/c"⟩

/-- The context get_repository_context produces for envPlain and the
single modified file "main.py" (no repo file list, no root). -/
def ctxPlainMain : RepoContext :=
  ⟨some ⟨[], [], [], [], []⟩,
   some ⟨[], "monolithic", []⟩,
   some ⟨"python", ⟨"unknown", "unknown"⟩, "mixed"⟩,
   some ⟨[], [], "low"⟩,
   some ⟨false, false, false, "unknown", "standard"⟩,
   []⟩

/- ---------- Claim theorems ---------- -/

/-- C3: with caching enabled and a positive TTL, a record whose creation
timestamp plus the truncated TTL is earlier than the current time is a
miss, and the backing file is deleted (absent in the post-state). -/
theorem c3_expired_cache_entry_removed (ttl_hours : ℚ) (now : Int) (rec : CacheRecord)
    (hpos : 0 < ttl_hours)
    (hexp : rec.ts.getD 0 + pyInt (ttl_hours * 3600) < now) :
    get_cached_context true ttl_hours now (some rec) = (none, none) := by
  simp only [get_cached_context]
  rw [if_neg (by simp), if_neg (not_le.mpr hpos), if_pos hexp]

/-- Witness for c3_expired_cache_entry_removed at TTL 1 hour, creation
time 0 and current time 3601. -/
theorem c3_expired_cache_entry_removed_witness :
    get_cached_context true 1 3601 (some ⟨some 0, some "cached text"⟩) = (none, none) :=
  c3_expired_cache_entry_removed 1 3601 ⟨some 0, some "cached text"⟩ (by norm_num)
    (by norm_num [pyInt])

/-- C4: whenever the repo_context_enabled flag is false, get_context_str
returns the empty string, whatever the other inputs and the repository
state provided by the environment. -/
theorem c4_disabled_flag_empty_string (env : ProviderEnv) (modified_files : List String)
    (pr_url : Option String) (h : env.enabled = false) :
    get_context_str env modified_files pr_url = "" := by
  unfold get_context_str
  rw [if_pos h]

/-- Witness for c4_disabled_flag_empty_string on a disabled environment
whose other fields are all non-trivial. -/
theorem c4_disabled_flag_empty_string_witness :
    get_context_str envOff ["a.py", "b.js"] (some "http://host/pr/1") = "" :=
  c4_disabled_flag_empty_string envOff ["a.py", "b.js"] (some "http://host/pr/1") rfl

/-- C10: with caching enabled, a fresh (unexpired, positive-TTL) record
whose stored context field is the empty string is reported as a miss
(None), with the backing file left in place. -/
theorem c10_empty_cached_context_miss (ttl_hours : ℚ) (now : Int) (rec : CacheRecord)
    (hpos : 0 < ttl_hours)
    (hfresh : ¬ (rec.ts.getD 0 + pyInt (ttl_hours * 3600) < now))
    (hempty : rec.context = some "") :
    get_cached_context true ttl_hours now (some rec) = (none, some rec) := by
  simp only [get_cached_context]
  rw [if_neg (by simp), if_neg (not_le.mpr hpos), if_neg hfresh]
  simp [hempty]

/-- Witness for c10_empty_cached_context_miss at TTL 24 hours, creation
time 0 and current time 0. -/
theorem c10_empty_cached_context_miss_witness :
    get_cached_context true 24 0 (some ⟨some 0, some ""⟩) = (none, some ⟨some 0, some ""⟩) :=
  c10_empty_cached_context_miss 24 0 ⟨some 0, some ""⟩ (by norm_num)
    (by norm_num [pyInt]) rfl

/-- C2 counterexample: with the feature enabled, the single IndexError
raised inside the language-conventions sub-analysis (empty basename) does
not degrade only that section: the whole analysis comes back as the empty
dict, although the dependencies-impact sub-analysis alone would have
produced a non-default section for the same input. -/
theorem c2_isolation_counterexample :
    envPlain.enabled = true ∧
    extract_naming_conventions ["requirements.txt", ""] = Except.error () ∧
    get_repository_context envPlain ["requirements.txt", ""] none none = none ∧
    analyze_dependencies_impact ["requirements.txt", ""] = ⟨["requirements.txt"], [], "high"⟩ :=
  ⟨rfl, by decide, by decide, by decide⟩

/-- C7 counterexample: on ["a.js", "b.py"] both languages count 1; the
extension table declares ".py" → python first, so the claimed tie-break
picks "python", but the code returns "javascript" (the language first
encountered in the file list). -/
theorem c7_table_order_counterexample :
    detect_primary_language ["a.js", "b.py"] = "javascript" ∧
    specPrimaryLanguageTableOrder ["a.js", "b.py"] = "python" ∧
    detect_primary_language ["a.js", "b.py"] ≠ specPrimaryLanguageTableOrder ["a.js", "b.py"] :=
  ⟨by decide, by decide, by decide⟩

/-- C8 counterexample: on basenames a-b.py, aB.py, cD.py, eF.py the
counts are snake 0, kebab 1, camel 3; the claimed majority rule picks
"camelCase", but the code's cascade returns "kebab_case" because the
kebab branch only compares against the snake count. -/
theorem c8_majority_counterexample :
    extract_naming_conventions ["a-b.py", "aB.py", "cD.py", "eF.py"] =
      Except.ok ⟨"kebab_case", "unknown"⟩ ∧
    specFileNamingMajority ["a-b.py", "aB.py", "cD.py", "eF.py"] = some "camelCase" :=
  ⟨by decide, by decide⟩

/-- C9 counterexample: the analysis of the single file "main.py" yields a
related-files record whose printed lists are all empty, yet the dict is
non-empty (truthy), so the formatter emits the "## Related Files" header
with no content line beneath it. -/
theorem c9_bare_header_counterexample :
    get_repository_context envPlain ["main.py"] none none = some ctxPlainMain ∧
    headersOkStrict (format_context_parts ctxPlainMain) = false :=
  ⟨by decide, by decide⟩

/-- C5: architecture classification is first-match-wins: "microservices"
iff some path contains the substring "service" and some path contains
"api"; otherwise "mvc" iff one of the literals "models"/"views"/
"controllers" is a full entry of the input list; otherwise "modular" iff
the root listing has a package marker; otherwise "monolithic" — together
with the two concrete examples of the claim. -/
theorem c5_architecture_classification (files : List String) (root_has_init : Bool) :
    (detect_architecture_type files root_has_init = "microservices" ↔
      ((∃ f ∈ files, occursIn "service".data f.data = true) ∧
       (∃ f ∈ files, occursIn "api".data f.data = true))) ∧
    (detect_architecture_type files root_has_init = "mvc" ↔
      (¬ ((∃ f ∈ files, occursIn "service".data f.data = true) ∧
          (∃ f ∈ files, occursIn "api".data f.data = true)) ∧
       ("models" ∈ files ∨ "views" ∈ files ∨ "controllers" ∈ files))) ∧
    (detect_architecture_type files root_has_init = "modular" ↔
      (¬ ((∃ f ∈ files, occursIn "service".data f.data = true) ∧
          (∃ f ∈ files, occursIn "api".data f.data = true)) ∧
       ¬ ("models" ∈ files ∨ "views" ∈ files ∨ "controllers" ∈ files) ∧
       root_has_init = true)) ∧
    (detect_architecture_type files root_has_init = "monolithic" ↔
      (¬ ((∃ f ∈ files, occursIn "service".data f.data = true) ∧
          (∃ f ∈ files, occursIn "api".data f.data = true)) ∧
       ¬ ("models" ∈ files ∨ "views" ∈ files ∨ "controllers" ∈ files) ∧
       root_has_init = false)) ∧
    detect_architecture_type ["api/service.py", "api/routes.py"] root_has_init = "microservices" ∧
    detect_architecture_type ["main.py", "utils.py"] false = "monolithic" := by
  have hex1 : detect_architecture_type ["api/service.py", "api/routes.py"] root_has_init =
      "microservices" := by
    unfold detect_architecture_type
    rw [if_pos (by decide)]
  have hex2 : detect_architecture_type ["main.py", "utils.py"] false = "monolithic" := by decide
  refine ⟨?_, ?_, ?_, ?_, hex1, hex2⟩ <;>
  · clear hex1 hex2
    have hmicro : (files.any (fun f => occursIn "service".data f.data) &&
        files.any (fun f => occursIn "api".data f.data)) = true ↔
        ((∃ f ∈ files, occursIn "service".data f.data = true) ∧
         (∃ f ∈ files, occursIn "api".data f.data = true)) := by
      simp [List.any_eq_true]
    have hmvc : ((["models", "views", "controllers"] : List String).any
        (fun l => files.contains l)) = true ↔
        ("models" ∈ files ∨ "views" ∈ files ∨ "controllers" ∈ files) := by
      simp [List.any_eq_true]
    unfold detect_architecture_type
    by_cases h1 : (files.any (fun f => occursIn "service".data f.data) &&
        files.any (fun f => occursIn "api".data f.data)) = true
    · rw [if_pos h1]
      rw [hmicro] at h1
      first
        | exact iff_of_true rfl h1
        | exact iff_of_false (by decide) (fun h => h.1 h1)
    · rw [if_neg h1]
      rw [hmicro] at h1
      by_cases h2 : ((["models", "views", "controllers"] : List String).any
          (fun l => files.contains l)) = true
      · rw [if_pos h2]
        rw [hmvc] at h2
        first
          | exact iff_of_true rfl ⟨h1, h2⟩
          | exact iff_of_false (by decide) (fun h => h1 h)
          | exact iff_of_false (by decide) (fun h => h.2.1 h2)
      · rw [if_neg h2]
        rw [hmvc] at h2
        cases root_has_init with
        | true =>
          rw [if_pos rfl]
          first
            | exact iff_of_true rfl ⟨h1, h2, rfl⟩
            | exact iff_of_false (by decide) (fun h => h1 h)
            | exact iff_of_false (by decide) (fun h => h2 h.2)
            | exact iff_of_false (by decide) (fun h => absurd h.2.2 (by decide))
        | false =>
          rw [if_neg (by decide)]
          first
            | exact iff_of_true rfl ⟨h1, h2, rfl⟩
            | exact iff_of_false (by decide) (fun h => h1 h)
            | exact iff_of_false (by decide) (fun h => h2 h.2)
            | exact iff_of_false (by decide) (fun h => absurd h.2.2 (by decide))

theorem camelFlag_error (f : String) (h : basename f = "") : camelFlag f = Except.error () := by
  unfold camelFlag
  rw [h]

theorem camelFlag_ok (f : String) (h : basename f ≠ "") : ∃ b, camelFlag f = Except.ok b := by
  unfold camelFlag
  cases hb : (basename f).data with
  | nil => exact absurd (String.ext (hb.trans rfl)) h
  | cons c rest => exact ⟨_, rfl⟩

theorem camelCountE_error_of : ∀ (files : List String), (∃ f ∈ files, basename f = "") →
    camelCountE files = Except.error ()
  | [], h => absurd h (by simp)
  | f :: t, h => by
    unfold camelCountE
    by_cases hf : basename f = ""
    · rw [camelFlag_error f hf]
    · obtain ⟨b, hb⟩ := camelFlag_ok f hf
      rw [hb]
      have ht : ∃ g ∈ t, basename g = "" := by
        obtain ⟨g, hg, hge⟩ := h
        cases hg with
        | head => exact absurd hge hf
        | tail _ hg2 => exact ⟨g, hg2, hge⟩
      rw [camelCountE_error_of t ht]

theorem camelCountE_ok_of : ∀ (files : List String), (∀ f ∈ files, basename f ≠ "") →
    ∃ n, camelCountE files = Except.ok n
  | [], _ => ⟨0, rfl⟩
  | f :: t, h => by
    obtain ⟨b, hb⟩ := camelFlag_ok f (h f (by simp))
    obtain ⟨n, hn⟩ := camelCountE_ok_of t (fun g hg => h g (List.mem_cons_of_mem f hg))
    unfold camelCountE
    rw [hb, hn]
    exact ⟨_, rfl⟩

theorem get_language_conventions_error_of (files : List String)
    (h : ∃ f ∈ files, basename f = "") :
    get_language_conventions files = Except.error () := by
  unfold get_language_conventions extract_naming_conventions
  rw [camelCountE_error_of files h]

theorem get_language_conventions_ok_of (files : List String)
    (h : ∀ f ∈ files, basename f ≠ "") :
    ∃ c, get_language_conventions files = Except.ok c := by
  obtain ⟨n, hn⟩ := camelCountE_ok_of files h
  unfold get_language_conventions extract_naming_conventions
  rw [hn]
  exact ⟨_, rfl⟩

/-- C2 (amended): only the top level is fault-isolated, not each
sub-analysis.  If the language-conventions sub-analysis raises (exactly
when some analysis path has an empty basename), the whole analysis
degrades to the empty dict — the already-computed related-files and
architecture sections are discarded and the later sections are never
computed — though nothing propagates to the caller; when it does not
raise, every section is present and equals its own sub-analysis. -/
theorem c2_isolation_amended (env : AnalyzerEnv) (modified_files : List String)
    (repo_files : Option (List String)) (repo_root : Option String)
    (h : env.enabled = true) :
    ((∃ f ∈ analysisFilesOf modified_files repo_files, basename f = "") →
      get_repository_context env modified_files repo_files repo_root = none) ∧
    ((∀ f ∈ analysisFilesOf modified_files repo_files, basename f ≠ "") →
      ∃ ctx, get_repository_context env modified_files repo_files repo_root = some ctx ∧
        ctx.related_files =
          some (get_related_files env repo_root (fileSetOf repo_files) modified_files) ∧
        ctx.architectural_patterns =
          some (identify_architectural_patterns env (analysisFilesOf modified_files repo_files)) ∧
        ctx.dependencies_impact = some (analyze_dependencies_impact modified_files) ∧
        ctx.code_patterns =
          some (extract_code_patterns (analysisFilesOf modified_files repo_files))) := by
  constructor
  · intro hex
    simp only [get_repository_context]
    rw [if_neg (by simp [h]), get_language_conventions_error_of _ hex]
  · intro hall
    obtain ⟨c, hc⟩ := get_language_conventions_ok_of _ hall
    simp only [get_repository_context]
    rw [if_neg (by simp [h]), hc]
    exact ⟨_, rfl, rfl, rfl, rfl, rfl⟩

/-- Witness for c2_isolation_amended on envPlain and the single modified
file "main.py". -/
theorem c2_isolation_amended_witness :
    ((∃ f ∈ analysisFilesOf ["main.py"] none, basename f = "") →
      get_repository_context envPlain ["main.py"] none none = none) ∧
    ((∀ f ∈ analysisFilesOf ["main.py"] none, basename f ≠ "") →
      ∃ ctx, get_repository_context envPlain ["main.py"] none none = some ctx ∧
        ctx.related_files = some (get_related_files envPlain none (fileSetOf none) ["main.py"]) ∧
        ctx.architectural_patterns =
          some (identify_architectural_patterns envPlain (analysisFilesOf ["main.py"] none)) ∧
        ctx.dependencies_impact = some (analyze_dependencies_impact ["main.py"]) ∧
        ctx.code_patterns = some (extract_code_patterns (analysisFilesOf ["main.py"] none))) :=
  c2_isolation_amended envPlain ["main.py"] none none rfl

/-- C8 (amended): the code's actual cascade over the three counters:
snake_case iff snake strictly exceeds both kebab and camel; otherwise
kebab_case iff kebab strictly exceeds snake (the camel count is ignored
there); otherwise camelCase iff any camel basename exists; otherwise
unknown — together with the claim's example (3 snake + 1 kebab gives
snake_case), which still holds. -/
theorem c8_naming_cascade_amended (files : List String) (camel : Nat)
    (h : camelCountE files = Except.ok camel) :
    extract_naming_conventions files =
      Except.ok ⟨if snakeCount files > kebabCount files ∧ snakeCount files > camel then "snake_case"
                 else if kebabCount files > snakeCount files then "kebab_case"
                 else if camel > 0 then "camelCase"
                 else "unknown", "unknown"⟩ ∧
    extract_naming_conventions ["foo_a.py", "foo_b.py", "foo_c.py", "x-y.py"] =
      Except.ok ⟨"snake_case", "unknown"⟩ := by
  constructor
  · unfold extract_naming_conventions
    rw [h]
  · decide

/-- Witness for c8_naming_cascade_amended at files ["a_b.py"], whose
camel count is 0. -/
theorem c8_naming_cascade_amended_witness :
    (extract_naming_conventions ["a_b.py"] =
      Except.ok ⟨if snakeCount ["a_b.py"] > kebabCount ["a_b.py"] ∧ snakeCount ["a_b.py"] > 0 then "snake_case"
                 else if kebabCount ["a_b.py"] > snakeCount ["a_b.py"] then "kebab_case"
                 else if 0 > 0 then "camelCase"
                 else "unknown", "unknown"⟩) ∧
    extract_naming_conventions ["foo_a.py", "foo_b.py", "foo_c.py", "x-y.py"] =
      Except.ok ⟨"snake_case", "unknown"⟩ :=
  c8_naming_cascade_amended ["a_b.py"] 0 (by decide)

theorem foldl_max_eq (l : List Nat) : ∀ a : Nat, l.foldl max a = max a (l.foldl max 0) := by
  induction l with
  | nil => intro a; simp
  | cons v t ih =>
    intro a
    simp only [List.foldl_cons]
    rw [ih (max a v), ih (max 0 v), Nat.zero_max, Nat.max_assoc]

theorem listMax_cons (v : Nat) (vs : List Nat) : listMax (v :: vs) = max v (listMax vs) := by
  unfold listMax
  simp only [List.foldl_cons]
  rw [foldl_max_eq, Nat.zero_max]

theorem listMax_attained : ∀ (l : List (String × Nat)), l ≠ [] →
    ∃ e ∈ l, e.2 = listMax (l.map Prod.snd)
  | [], h => absurd rfl h
  | [x], _ => ⟨x, by simp, by simp [listMax]⟩
  | x :: y :: t, _ => by
    obtain ⟨e, he, hev⟩ := listMax_attained (y :: t) (by simp)
    rw [List.map_cons, listMax_cons]
    rcases Nat.le_total x.2 (listMax ((y :: t).map Prod.snd)) with hle | hle
    · exact ⟨e, List.mem_cons_of_mem x he, by rw [hev, Nat.max_eq_right hle]⟩
    · exact ⟨x, List.mem_cons_self x _, by rw [Nat.max_eq_left hle]⟩

theorem maxLoop_eq : ∀ (t : List (String × Nat)) (bk : String) (bv : Nat),
    maxLoop bk bv t =
      ((((bk, bv) :: t).find? (fun e => e.2 == listMax (((bk, bv) :: t).map Prod.snd))).map
        Prod.fst).getD bk
  | [], bk, bv => by
    simp [maxLoop, listMax, List.find?]
  | (k, v) :: t, bk, bv => by
    have hMr : listMax (((bk, bv) :: (k, v) :: t).map Prod.snd) =
        max bv (listMax (((k, v) :: t).map Prod.snd)) := by
      rw [List.map_cons, listMax_cons]
    unfold maxLoop
    by_cases hv : v > bv
    · rw [if_pos hv, maxLoop_eq t k v]
      have hvle : v ≤ listMax (((k, v) :: t).map Prod.snd) := by
        rw [List.map_cons, listMax_cons]; exact Nat.le_max_left _ _
      have hM : listMax (((bk, bv) :: (k, v) :: t).map Prod.snd) =
          listMax (((k, v) :: t).map Prod.snd) := by
        rw [hMr]; exact Nat.max_eq_right (by omega)
      have h1 : (bv == listMax (((k, v) :: t).map Prod.snd)) = false :=
        beq_eq_false_iff_ne.mpr (by omega)
      simp only [hM, List.find?_cons, h1]
      by_cases hvM : (v == listMax (((k, v) :: t).map Prod.snd)) = true
      · simp only [hvM]
        rfl
      · simp only [Bool.not_eq_true] at hvM
        simp only [hvM]
        obtain ⟨e, he, hev⟩ := listMax_attained ((k, v) :: t) (by simp)
        have het : e ∈ t := by
          cases he with
          | head => exact absurd hev (beq_eq_false_iff_ne.mp hvM)
          | tail _ h => exact h
        have hsome : (t.find?
            (fun e => e.2 == listMax (((k, v) :: t).map Prod.snd))).isSome := by
          rw [List.find?_isSome]
          exact ⟨e, het, beq_iff_eq.mpr hev⟩
        obtain ⟨w, hw⟩ := Option.isSome_iff_exists.mp hsome
        rw [hw]
        rfl
    · rw [if_neg hv, maxLoop_eq t bk bv]
      have hMl : listMax (((bk, bv) :: t).map Prod.snd) =
          max bv (listMax (t.map Prod.snd)) := by
        rw [List.map_cons, listMax_cons]
      have hM : listMax (((bk, bv) :: (k, v) :: t).map Prod.snd) =
          listMax (((bk, bv) :: t).map Prod.snd) := by
        rw [hMr, List.map_cons, listMax_cons, hMl, ← Nat.max_assoc]
        congr 1
        exact Nat.max_eq_left (by omega)
      simp only [hM, List.find?_cons]
      by_cases hbv : (bv == listMax (((bk, bv) :: t).map Prod.snd)) = true
      · simp only [hbv]
      · simp only [Bool.not_eq_true] at hbv
        have hble : bv ≤ listMax (((bk, bv) :: t).map Prod.snd) := by
          rw [hMl]; exact Nat.le_max_left _ _
        have hbne : bv ≠ listMax (((bk, bv) :: t).map Prod.snd) :=
          beq_eq_false_iff_ne.mp hbv
        have h2 : (v == listMax (((bk, bv) :: t).map Prod.snd)) = false :=
          beq_eq_false_iff_ne.mpr (by omega)
        simp only [hbv, h2]

theorem bumpCount_keys (k : String) : ∀ (acc : List (String × Nat)),
    (bumpCount acc k).map Prod.fst = insertUniq (acc.map Prod.fst) k
  | [] => by simp [bumpCount, insertUniq]
  | e :: t => by
    unfold bumpCount
    by_cases he : e.1 = k
    · rw [if_pos he]
      simp only [List.map_cons]
      unfold insertUniq
      rw [if_pos (he ▸ List.mem_cons_self e.1 (t.map Prod.fst))]
    · rw [if_neg he]
      simp only [List.map_cons, bumpCount_keys k t]
      unfold insertUniq
      by_cases hk : k ∈ t.map Prod.fst
      · rw [if_pos hk, if_pos (List.mem_cons_of_mem e.1 hk)]
      · rw [if_neg hk, if_neg (by
          intro hmem
          rcases List.mem_cons.mp hmem with h | h
          · exact he h.symm
          · exact hk h)]
        simp

theorem lookupCnt_bump_self (k : String) : ∀ (acc : List (String × Nat)),
    lookupCnt (bumpCount acc k) k = lookupCnt acc k + 1
  | [] => by simp [bumpCount, lookupCnt, List.find?]
  | e :: t => by
    unfold bumpCount
    by_cases he : e.1 = k
    · rw [if_pos he]
      have hb : (e.1 == k) = true := beq_iff_eq.mpr he
      unfold lookupCnt
      simp only [List.find?_cons, hb]
    · rw [if_neg he]
      have hb : (e.1 == k) = false := beq_eq_false_iff_ne.mpr he
      unfold lookupCnt
      simp only [List.find?_cons, hb]
      exact lookupCnt_bump_self k t

theorem lookupCnt_bump_other (k k' : String) (hne : k' ≠ k) : ∀ (acc : List (String × Nat)),
    lookupCnt (bumpCount acc k) k' = lookupCnt acc k'
  | [] => by
    have hb : (k == k') = false := beq_eq_false_iff_ne.mpr (fun h => hne h.symm)
    simp [bumpCount, lookupCnt, List.find?, hb]
  | e :: t => by
    unfold bumpCount
    by_cases he : e.1 = k
    · rw [if_pos he]
      have hb : (e.1 == k') = false :=
        beq_eq_false_iff_ne.mpr (fun h => hne (he ▸ h : k = k').symm)
      unfold lookupCnt
      simp only [List.find?_cons, hb]
    · rw [if_neg he]
      unfold lookupCnt
      simp only [List.find?_cons]
      by_cases he' : (e.1 == k') = true
      · simp only [he']
      · simp only [Bool.not_eq_true] at he'
        simp only [he']
        exact lookupCnt_bump_other k k' hne t

theorem countLang_cons (f : String) (t : List String) (k : String) :
    countLang (f :: t) k = countLang t k + (if (langOf f == some k) = true then 1 else 0) := by
  unfold countLang
  rw [List.filter_cons]
  by_cases h : (langOf f == some k) = true
  · rw [if_pos h, if_pos h, List.length_cons]
  · rw [if_neg h, if_neg h]
    omega

theorem langCounts_go_keys : ∀ (files : List String) (acc : List (String × Nat)),
    (List.foldl (fun acc f =>
      match langOf f with
      | some lang => bumpCount acc lang
      | none => acc) acc files).map Prod.fst =
    List.foldl (fun ks f =>
      match langOf f with
      | some l => insertUniq ks l
      | none => ks) (acc.map Prod.fst) files
  | [], _ => rfl
  | f :: t, acc => by
    simp only [List.foldl_cons]
    cases hl : langOf f with
    | none => exact langCounts_go_keys t acc
    | some l =>
      rw [langCounts_go_keys t (bumpCount acc l), bumpCount_keys]

theorem langCounts_go_lookup : ∀ (files : List String) (acc : List (String × Nat)) (k : String),
    lookupCnt (List.foldl (fun acc f =>
      match langOf f with
      | some lang => bumpCount acc lang
      | none => acc) acc files) k = lookupCnt acc k + countLang files k
  | [], _, k => by simp [countLang]
  | f :: t, acc, k => by
    simp only [List.foldl_cons]
    rw [countLang_cons]
    cases hl : langOf f with
    | none =>
      rw [langCounts_go_lookup t acc k]
      have hb : ((none : Option String) == some k) = false := rfl
      rw [hb]
      simp
    | some l =>
      rw [langCounts_go_lookup t (bumpCount acc l) k]
      by_cases hkl : k = l
      · subst hkl
        rw [lookupCnt_bump_self]
        have hb : ((some k : Option String) == some k) = true := beq_self_eq_true _
        rw [hb]
        have h1 : (if ((true : Bool) = true) then (1 : Nat) else 0) = 1 := rfl
        rw [h1]
        omega
      · rw [lookupCnt_bump_other l k hkl]
        have hb : ((some l : Option String) == some k) = false :=
          beq_eq_false_iff_ne.mpr (fun hcontra => hkl (Option.some.inj hcontra).symm)
        rw [hb]
        simp

theorem insertUniq_nodup (l : List String) (x : String) (h : l.Nodup) :
    (insertUniq l x).Nodup := by
  unfold insertUniq
  by_cases hx : x ∈ l
  · rw [if_pos hx]; exact h
  · rw [if_neg hx]
    rw [List.nodup_append]
    exact ⟨h, List.nodup_singleton x, fun a ha hax => hx ((List.mem_singleton.mp hax) ▸ ha)⟩

theorem firstSeen_go_nodup : ∀ (files : List String) (acc : List String), acc.Nodup →
    (List.foldl (fun ks f =>
      match langOf f with
      | some l => insertUniq ks l
      | none => ks) acc files).Nodup
  | [], _, h => h
  | f :: t, acc, h => by
    simp only [List.foldl_cons]
    cases hl : langOf f with
    | none => exact firstSeen_go_nodup t acc h
    | some l => exact firstSeen_go_nodup t (insertUniq acc l) (insertUniq_nodup acc l h)

theorem assoc_canonical : ∀ (m : List (String × Nat)), (m.map Prod.fst).Nodup →
    m = (m.map Prod.fst).map (fun k => (k, lookupCnt m k))
  | [], _ => rfl
  | e :: t, h => by
    simp only [List.map_cons] at h ⊢
    have h1 : e.1 ∉ t.map Prod.fst := (List.nodup_cons.mp h).1
    have h2 : (t.map Prod.fst).Nodup := (List.nodup_cons.mp h).2
    congr 1
    · have : lookupCnt (e :: t) e.1 = e.2 := by
        unfold lookupCnt
        simp only [List.find?_cons, beq_self_eq_true]
      rw [this]
    · conv_lhs => rw [assoc_canonical t h2]
      refine List.map_congr_left (fun k hk => ?_)
      have hne : (e.1 == k) = false :=
        beq_eq_false_iff_ne.mpr (fun hcontra => h1 (by rw [hcontra]; exact hk))
      have hx : lookupCnt (e :: t) k = lookupCnt t k := by
        unfold lookupCnt
        simp only [List.find?_cons, hne]
      rw [hx]

theorem langCounts_eq (files : List String) :
    langCounts files = (firstSeenLangs files).map (fun k => (k, countLang files k)) := by
  have hkeys : (langCounts files).map Prod.fst = firstSeenLangs files := by
    unfold langCounts firstSeenLangs
    exact langCounts_go_keys files []
  have hnodup : ((langCounts files).map Prod.fst).Nodup := by
    rw [hkeys]
    unfold firstSeenLangs
    exact firstSeen_go_nodup files [] List.nodup_nil
  have hcanon := assoc_canonical (langCounts files) hnodup
  rw [hcanon, hkeys]
  refine List.map_congr_left (fun k _ => ?_)
  have hl : lookupCnt (langCounts files) k = countLang files k := by
    unfold langCounts
    rw [langCounts_go_lookup files [] k]
    simp [lookupCnt]
  rw [hl]

theorem find_over_mapped (l : String) (ls : List String) (c : String → Nat) (M : Nat) :
    (((l, c l) :: ls.map (fun k => (k, c k))).find?
      (fun e => e.2 == M)).map Prod.fst = (l :: ls).find? (fun k => c k == M) := by
  have h0 : ((l, c l) :: ls.map (fun k => (k, c k))) = (l :: ls).map (fun k => (k, c k)) := rfl
  rw [h0, List.find?_map, Option.map_map]
  have h1 : (Prod.fst ∘ fun (k : String) => (k, c k)) = id := rfl
  rw [h1, Option.map_id]
  rfl

theorem snd_over_mapped (l : String) (ls : List String) (c : String → Nat) :
    ((l, c l) :: ls.map (fun k => (k, c k))).map Prod.snd = (l :: ls).map c := by
  simp only [List.map_cons, List.map_map]
  rfl

/-- C7 (amended): primary-language detection counts files by extension
through the fixed table and returns a language of maximum count, but a
tie is broken by the order in which the tied languages are first
encountered in the file list (the insertion order of the counting dict),
not by the table's declaration order; an empty count yields "unknown". -/
theorem c7_first_seen_tiebreak_amended (files : List String) :
    detect_primary_language files = specPrimaryLanguageFirstSeen files := by
  unfold detect_primary_language specPrimaryLanguageFirstSeen
  rw [langCounts_eq]
  cases hls : firstSeenLangs files with
  | nil => rfl
  | cons l ls =>
    simp only [List.map_cons]
    rw [maxLoop_eq]
    rw [snd_over_mapped l ls (countLang files)]
    rw [find_over_mapped l ls (countLang files) (listMax ((l :: ls).map (countLang files)))]
    obtain ⟨e, he, hev⟩ := listMax_attained ((l, countLang files l) ::
      ls.map (fun k => (k, countLang files k))) (by simp)
    rw [snd_over_mapped l ls (countLang files)] at hev
    have hmem : ∃ k ∈ l :: ls, (countLang files k == listMax ((l :: ls).map (countLang files))) = true := by
      have h0 : ((l, countLang files l) :: ls.map (fun k => (k, countLang files k))) =
          (l :: ls).map (fun k => (k, countLang files k)) := rfl
      rw [h0] at he
      obtain ⟨k, hk, hke⟩ := List.mem_map.mp he
      refine ⟨k, hk, ?_⟩
      rw [beq_iff_eq]
      have : countLang files k = e.2 := by rw [← hke]
      rw [this, hev]
    have hsome : ((l :: ls).find?
        (fun k => countLang files k == listMax ((l :: ls).map (countLang files)))).isSome := by
      rw [List.find?_isSome]
      exact hmem
    obtain ⟨w, hw⟩ := Option.isSome_iff_exists.mp hsome
    simp only [List.map_cons] at hw ⊢
    rw [hw]
    rfl

theorem mem_insertUniq {p : String} {l : List String} {x : String}
    (h : p ∈ insertUniq l x) : p ∈ l ∨ p = x := by
  unfold insertUniq at h
  by_cases hx : x ∈ l
  · rw [if_pos hx] at h
    exact Or.inl h
  · rw [if_neg hx] at h
    rcases List.mem_append.mp h with h | h
    · exact Or.inl h
    · exact Or.inr (List.mem_singleton.mp h)

theorem mem_unionL {p : String} : ∀ (b a : List String), p ∈ unionL a b → p ∈ a ∨ p ∈ b
  | [], a, h => Or.inl h
  | x :: t, a, h => by
    unfold unionL at h
    simp only [List.foldl_cons] at h
    rcases mem_unionL t (insertUniq a x) h with h2 | h2
    · rcases mem_insertUniq h2 with h3 | h3
      · exact Or.inl h3
      · exact Or.inr (h3 ▸ List.mem_cons_self x t)
    · exact Or.inr (List.mem_cons_of_mem x h2)

theorem mem_dedupL_go {p : String} : ∀ (l acc : List String),
    p ∈ l.foldl insertUniq acc → p ∈ acc ∨ p ∈ l
  | [], _, h => Or.inl h
  | x :: t, acc, h => by
    simp only [List.foldl_cons] at h
    rcases mem_dedupL_go t (insertUniq acc x) h with h2 | h2
    · rcases mem_insertUniq h2 with h3 | h3
      · exact Or.inl h3
      · exact Or.inr (h3 ▸ List.mem_cons_self x t)
    · exact Or.inr (List.mem_cons_of_mem x h2)

theorem mem_dedupL {p : String} {l : List String} (h : p ∈ dedupL l) : p ∈ l := by
  rcases mem_dedupL_go l [] h with h2 | h2
  · cases h2
  · exact h2

theorem mem_insertSorted {p x : String} : ∀ (l : List String),
    p ∈ insertSorted x l → p = x ∨ p ∈ l
  | [], h => Or.inl (List.mem_singleton.mp h)
  | y :: t, h => by
    unfold insertSorted at h
    by_cases hlt : x < y
    · rw [if_pos hlt] at h
      rcases List.mem_cons.mp h with h2 | h2
      · exact Or.inl h2
      · exact Or.inr h2
    · rw [if_neg hlt] at h
      rcases List.mem_cons.mp h with h2 | h2
      · exact Or.inr (h2 ▸ List.mem_cons_self y t)
      · rcases mem_insertSorted t h2 with h3 | h3
        · exact Or.inl h3
        · exact Or.inr (List.mem_cons_of_mem y h3)

theorem mem_sortStrs {p : String} : ∀ (l : List String), p ∈ sortStrs l → p ∈ l
  | [], h => h
  | x :: t, h => by
    unfold sortStrs at h
    simp only [List.foldr_cons] at h
    rcases mem_insertSorted (t.foldr insertSorted []) h with h2 | h2
    · exact h2 ▸ List.mem_cons_self x t
    · exact List.mem_cons_of_mem x (mem_sortStrs t h2)

theorem mem_filter_existing {p : String} {S : Option (List String)} {cands : List String}
    (h : p ∈ filter_existing_candidates S cands) :
    ∃ files, S = some files ∧ p ∈ files := by
  unfold filter_existing_candidates at h
  cases S with
  | none => cases h
  | some files =>
    change p ∈ (if files = [] then [] else (dedupL cands).filter (fun c => files.contains c)) at h
    by_cases hf : files = []
    · rw [if_pos hf] at h
      cases h
    · rw [if_neg hf] at h
      refine ⟨files, rfl, ?_⟩
      have := List.mem_filter.mp h
      simpa using this.2

theorem resolve_python_module_sub {p : String} {files : List String}
    (fp m : String) (h : p ∈ resolve_python_module (some files) fp m) : p ∈ files := by
  unfold resolve_python_module at h
  by_cases hm : m = ""
  · rw [if_pos hm] at h
    cases h
  · rw [if_neg hm] at h
    obtain ⟨fs, hfs, hp⟩ := mem_filter_existing h
    cases Option.some.inj hfs
    exact hp

theorem resolve_js_module_sub {p : String} {files : List String}
    (fp m : String) (h : p ∈ resolve_js_module (some files) fp m) : p ∈ files := by
  unfold resolve_js_module at h
  by_cases hm : m.data.head? = some '.'
  · rw [if_pos hm] at h
    obtain ⟨fs, hfs, hp⟩ := mem_filter_existing h
    cases Option.some.inj hfs
    exact hp
  · rw [if_neg hm] at h
    cases h

theorem mem_foldl_unionL {p : String} {files : List String} {f : String → List String}
    (hf : ∀ m q, q ∈ f m → q ∈ files) : ∀ (l acc : List String),
    (∀ q ∈ acc, q ∈ files) → p ∈ l.foldl (fun a m => unionL a (f m)) acc → p ∈ files
  | [], acc, hacc, h => hacc p h
  | x :: t, acc, hacc, h => by
    simp only [List.foldl_cons] at h
    refine mem_foldl_unionL hf t (unionL acc (f x)) (fun q hq => ?_) h
    rcases mem_unionL (f x) acc hq with h2 | h2
    · exact hacc q h2
    · exact hf x q h2

theorem resolve_imports_sub {p : String} {files : List String} (env : AnalyzerEnv)
    (fp contents : String) (h : p ∈ resolve_imports env (some files) fp contents) :
    p ∈ files := by
  unfold resolve_imports at h
  by_cases he : (splitext fp).2 = ".py"
  · rw [if_pos he] at h
    unfold resolve_python_imports at h
    exact mem_foldl_unionL (fun m q hq => resolve_python_module_sub fp m hq)
      (env.pyImportSpecs contents) [] (by simp) h
  · rw [if_neg he] at h
    unfold resolve_js_imports at h
    exact mem_foldl_unionL (fun m q hq => resolve_js_module_sub fp m hq)
      (env.jsImportSpecs contents) [] (by simp) h

theorem lookupD_sub {P : String → Prop} {m : List (String × List String)}
    (hm : ∀ e ∈ m, ∀ q ∈ e.2, P q) (k : String) : ∀ q ∈ lookupD m k, P q := by
  intro q hq
  unfold lookupD at hq
  cases hfind : m.find? (fun e => e.1 == k) with
  | none => rw [hfind] at hq; cases hq
  | some e => rw [hfind] at hq; exact hm e (List.mem_of_find?_eq_some hfind) q hq

theorem addToMapSet_sub {P : String → Prop} : ∀ (m : List (String × List String)) (k v : String),
    (∀ e ∈ m, ∀ q ∈ e.2, P q) → P v → ∀ e ∈ addToMapSet m k v, ∀ q ∈ e.2, P q
  | [], k, v, _, hv => by
    intro e he q hq
    unfold addToMapSet at he
    rw [List.mem_singleton.mp he] at hq
    rw [List.mem_singleton.mp hq]
    exact hv
  | x :: t, k, v, hm, hv => by
    intro e he q hq
    unfold addToMapSet at he
    by_cases hx : x.1 = k
    · rw [if_pos hx] at he
      rcases List.mem_cons.mp he with he | he
      · rw [he] at hq
        rcases mem_insertUniq hq with h2 | h2
        · exact hm x (List.mem_cons_self x t) q h2
        · exact h2 ▸ hv
      · exact hm e (List.mem_cons_of_mem x he) q hq
    · rw [if_neg hx] at he
      rcases List.mem_cons.mp he with he | he
      · exact hm x (List.mem_cons_self x t) q (he ▸ hq)
      · exact addToMapSet_sub t k v (fun e2 he2 => hm e2 (List.mem_cons_of_mem x he2)) hv e he q hq

theorem foldl_addToMapSet_sub {P : String → Prop} : ∀ (resolved : List String)
    (m : List (String × List String)) (rf : String),
    (∀ e ∈ m, ∀ q ∈ e.2, P q) → P rf →
    ∀ e ∈ resolved.foldl (fun m tgt => addToMapSet m tgt rf) m, ∀ q ∈ e.2, P q
  | [], m, _, hm, _ => hm
  | x :: t, m, rf, hm, hrf => by
    simp only [List.foldl_cons]
    exact foldl_addToMapSet_sub t (addToMapSet m x rf) rf
      (addToMapSet_sub m x rf hm hrf) hrf

theorem importStep_inv (env : AnalyzerEnv) (root : Option String) (files : List String)
    (rf : String) (hrf : rf ∈ files)
    (acc : List (String × List String) × List (String × List String))
    (hacc : (∀ e ∈ acc.1, ∀ q ∈ e.2, q ∈ files) ∧ (∀ e ∈ acc.2, ∀ q ∈ e.2, q ∈ files)) :
    (∀ e ∈ (importStep env root files acc rf).1, ∀ q ∈ e.2, q ∈ files) ∧
    (∀ e ∈ (importStep env root files acc rf).2, ∀ q ∈ e.2, q ∈ files) := by
  unfold importStep
  by_cases h1 : ¬ is_import_scannable rf
  · rw [if_pos h1]; exact hacc
  · rw [if_neg h1]
    by_cases h2 : read_repo_file env root rf = ""
    · rw [if_pos h2]; exact hacc
    · rw [if_neg h2]
      by_cases h3 : resolve_imports env (some files) rf (read_repo_file env root rf) = []
      · rw [if_pos h3]; exact hacc
      · rw [if_neg h3]
        constructor
        · intro e he q hq
          rcases List.mem_append.mp he with he | he
          · exact hacc.1 e he q hq
          · rw [List.mem_singleton.mp he] at hq
            exact resolve_imports_sub env rf _ hq
        · exact foldl_addToMapSet_sub _ acc.2 rf hacc.2 hrf

theorem foldl_importStep_inv (env : AnalyzerEnv) (root : Option String) (files : List String) :
    ∀ (l : List String), (∀ rf ∈ l, rf ∈ files) →
    ∀ (acc : List (String × List String) × List (String × List String)),
    (∀ e ∈ acc.1, ∀ q ∈ e.2, q ∈ files) ∧ (∀ e ∈ acc.2, ∀ q ∈ e.2, q ∈ files) →
    (∀ e ∈ (l.foldl (importStep env root files) acc).1, ∀ q ∈ e.2, q ∈ files) ∧
    (∀ e ∈ (l.foldl (importStep env root files) acc).2, ∀ q ∈ e.2, q ∈ files)
  | [], _, _, hacc => hacc
  | rf :: t, hl, acc, hacc => by
    simp only [List.foldl_cons]
    exact foldl_importStep_inv env root files t
      (fun x hx => hl x (List.mem_cons_of_mem rf hx))
      (importStep env root files acc rf)
      (importStep_inv env root files rf (hl rf (List.mem_cons_self rf t)) acc hacc)

theorem populate_sub (env : AnalyzerEnv) (root : Option String) (files : List String)
    (modified : List String) :
    (∀ p ∈ (populate_import_relationships env root (some files) modified).1, p ∈ files) ∧
    (∀ p ∈ (populate_import_relationships env root (some files) modified).2, p ∈ files) := by
  unfold populate_import_relationships
  by_cases hr : root.getD "" = ""
  · rw [if_pos hr]
    exact ⟨fun p hp => absurd hp (by simp), fun p hp => absurd hp (by simp)⟩
  · rw [if_neg hr]
    by_cases hf : files = []
    · change (∀ p ∈ (if files = [] then (([], []) : List String × List String) else _).1, p ∈ files) ∧
        (∀ p ∈ (if files = [] then (([], []) : List String × List String) else _).2, p ∈ files)
      rw [if_pos hf]
      exact ⟨fun p hp => absurd hp (by simp), fun p hp => absurd hp (by simp)⟩
    · have hmaps := foldl_importStep_inv env root files (dedupL files)
        (fun rf hrf => mem_dedupL hrf) ([], [])
        (⟨fun e he => absurd he (by simp), fun e he => absurd he (by simp)⟩)
      constructor
      · intro p hp
        change p ∈ (if files = [] then (([], []) : List String × List String) else _).1 at hp
        rw [if_neg hf] at hp
        have hp2 := mem_sortStrs _ hp
        exact mem_foldl_unionL (fun m q hq => lookupD_sub hmaps.1 m q hq)
          modified [] (by simp) hp2
      · intro p hp
        change p ∈ (if files = [] then (([], []) : List String × List String) else _).2 at hp
        rw [if_neg hf] at hp
        have hp2 := mem_sortStrs _ hp
        exact mem_foldl_unionL (fun m q hq => lookupD_sub hmaps.2 m q hq)
          modified [] (by simp) hp2

/-- C1: in any analysis call carrying a repo file set and a repo root,
every path recorded in the returned related_files maps imports_from and
imported_by belongs to the supplied file set; resolved candidates outside
the set are filtered away and contribute no edge. -/
theorem c1_import_edges_within_fileset (env : AnalyzerEnv) (modified rfs : List String)
    (root : String) (ctx : RepoContext) (rel : RelatedFiles)
    (hctx : get_repository_context env modified (some rfs) (some root) = some ctx)
    (hrel : ctx.related_files = some rel) :
    (∀ p ∈ rel.imports_from, p ∈ rfs) ∧ (∀ p ∈ rel.imported_by, p ∈ rfs) := by
  simp only [get_repository_context] at hctx
  by_cases he : env.enabled = false
  · rw [if_pos he] at hctx; cases hctx
  · rw [if_neg he] at hctx
    cases hconv : get_language_conventions (analysisFilesOf modified (some rfs)) with
    | error e =>
      rw [hconv] at hctx
      cases hctx
    | ok conv =>
      rw [hconv] at hctx
      have hctx2 := Option.some.inj hctx
      rw [← hctx2] at hrel
      have hrel2 := Option.some.inj hrel
      rw [← hrel2]
      unfold get_related_files
      by_cases hrfs : rfs = []
      · have hS : fileSetOf (some rfs) = none := by
          simp only [fileSetOf]
          rw [if_pos hrfs]
        rw [hS]
        constructor
        · intro p hp
          change p ∈ (populate_import_relationships env (some root) none modified).1 at hp
          simp [populate_import_relationships] at hp
        · intro p hp
          change p ∈ (populate_import_relationships env (some root) none modified).2 at hp
          simp [populate_import_relationships] at hp
      · have hS : fileSetOf (some rfs) = some rfs := by
          simp only [fileSetOf]
          rw [if_neg hrfs]
        rw [hS]
        have hsub := populate_sub env (some root) rfs modified
        exact ⟨fun p hp => hsub.1 p hp, fun p hp => hsub.2 p hp⟩

/-- Witness for c1_import_edges_within_fileset: a.py imports b, resolved
to b.py inside the file set ["a.py", "b.py"]. -/
theorem c1_import_edges_within_fileset_witness :
    (∀ p ∈ (["b.py"] : List String), p ∈ (["a.py", "b.py"] : List String)) ∧
    (∀ p ∈ ([] : List String), p ∈ (["a.py", "b.py"] : List String)) :=
  c1_import_edges_within_fileset envImport ["a.py"] ["a.py", "b.py"] "/r"
    ⟨some ⟨[], [], [], [], ["b.py"]⟩,
     some ⟨[], "monolithic", []⟩,
     some ⟨"python", ⟨"unknown", "unknown"⟩, "mixed"⟩,
     some ⟨[], [], "low"⟩,
     some ⟨false, false, false, "unknown", "standard"⟩, []⟩
    ⟨[], [], [], [], ["b.py"]⟩ (by decide) rfl

theorem mem_of_getLast?_eq (l : List String) (p : String) (h : l.getLast? = some p) :
    p ∈ l := by
  obtain ⟨hne, heq⟩ := List.mem_getLast?_eq_getLast (Option.mem_def.mpr h)
  rw [heq]
  exact List.getLast_mem hne

theorem isContentLine_append_of (a s : String) (h : isContentLine a = true) :
    isContentLine (a ++ s) = true := by
  have h2 : a.data.take 2 = ['-', ' '] := of_decide_eq_true h
  have hlen : 2 ≤ a.data.length := by
    have h3 := congrArg List.length h2
    rw [List.length_take] at h3
    simp only [List.length_cons, List.length_singleton] at h3
    omega
  unfold isContentLine
  rw [String.data_append]
  refine decide_eq_true ?_
  rw [List.take_append_eq_append_take, h2]
  have h0 : 2 - a.data.length = 0 := by omega
  rw [h0, List.take_zero, List.append_nil]

theorem needsContent_of_content (x : String) (h : isContentLine x = true) :
    needsContent x = false := by
  unfold needsContent isHeaderLine
  unfold isContentLine at h
  rw [decide_eq_true_eq] at h
  rw [h]
  simp

theorem headersOkLenient_of_all_safe : ∀ (l : List String),
    (∀ p ∈ l, needsContent p = false) → headersOkLenient l = true
  | [], _ => rfl
  | p :: rest, h => by
    unfold headersOkLenient
    rw [h p (List.mem_cons_self p rest)]
    simp only [Bool.not_false, Bool.true_or, Bool.true_and]
    exact headersOkLenient_of_all_safe rest (fun q hq => h q (List.mem_cons_of_mem p hq))

theorem endsSafe_of_all_safe (l : List String) (h : ∀ p ∈ l, needsContent p = false) :
    endsSafe l :=
  fun p hp => h p (mem_of_getLast?_eq l p hp)

theorem endsSafe_append (xs ys : List String) (hx : endsSafe xs) (hy : endsSafe ys) :
    endsSafe (xs ++ ys) := by
  intro p hp
  cases ys with
  | nil =>
    rw [List.append_nil] at hp
    exact hx p hp
  | cons y t =>
    rw [List.getLast?_append_of_ne_nil _ (by simp)] at hp
    exact hy p hp

theorem headersOkLenient_append : ∀ (xs ys : List String),
    headersOkLenient xs = true → headersOkLenient ys = true → endsSafe xs →
    headersOkLenient (xs ++ ys) = true
  | [], ys, _, hy, _ => hy
  | [p], ys, _, hy, hsafe => by
    rw [List.singleton_append]
    unfold headersOkLenient
    rw [hsafe p rfl]
    simpa using hy
  | p :: q :: t, ys, hx, hy, hsafe => by
    rw [List.cons_append]
    unfold headersOkLenient at hx ⊢
    simp only [List.cons_append, List.head?_cons] at hx ⊢
    rw [Bool.and_eq_true] at hx
    rw [Bool.and_eq_true]
    refine ⟨hx.1, ?_⟩
    exact headersOkLenient_append (q :: t) ys hx.2 hy
      (fun r hr => hsafe r (by rw [List.getLast?_cons_cons]; exact hr))

theorem headersOkLenient_header_cons (hdr c : String) (rest : List String)
    (hc : isContentLine c = true) (hrest : headersOkLenient (c :: rest) = true) :
    headersOkLenient (hdr :: c :: rest) = true := by
  unfold headersOkLenient
  simp only [List.head?_cons, hc]
  rw [Bool.and_eq_true]
  exact ⟨by simp, hrest⟩

theorem endsSafe_concat_empty (xs : List String) : endsSafe (xs ++ [""]) := by
  intro p hp
  rw [List.getLast?_append_of_ne_nil _ (by simp)] at hp
  have hpe : p = "" := by
    have : some "" = some p := hp.symm ▸ rfl
    exact (Option.some.inj this).symm
  rw [hpe]
  decide

theorem relatedParts_safe (rf : Option RelatedFiles) :
    ∀ p ∈ relatedParts rf, needsContent p = false := by
  intro p hp
  cases rf with
  | none => cases hp
  | some r =>
    unfold relatedParts at hp
    simp only [List.mem_append, List.mem_singleton] at hp
    rcases hp with (((hp | hp) | hp) | hp) | hp
    · rw [hp]; decide
    · by_cases hc : r.test_files ≠ []
      · rw [if_pos hc] at hp
        rw [List.mem_singleton.mp hp]
        exact needsContent_of_content _ (isContentLine_append_of "- Test files: " _ (by decide))
      · rw [if_neg hc] at hp; cases hp
    · by_cases hc : r.config_files ≠ []
      · rw [if_pos hc] at hp
        rw [List.mem_singleton.mp hp]
        exact needsContent_of_content _ (isContentLine_append_of "- Config files: " _ (by decide))
      · rw [if_neg hc] at hp; cases hp
    · by_cases hc : r.documentation_files ≠ []
      · rw [if_pos hc] at hp
        rw [List.mem_singleton.mp hp]
        exact needsContent_of_content _ (isContentLine_append_of "- Documentation: " _ (by decide))
      · rw [if_neg hc] at hp; cases hp
    · rw [hp]; decide

theorem archParts_tail_safe (a : ArchPatterns) :
    ∀ p ∈ ("- Type: " ++ a.architecture_type) ::
      ((if a.layers ≠ [] then ["- Layers: " ++ joinComma a.layers] else []) ++ [""]),
      needsContent p = false := by
  intro p hp
  rcases List.mem_cons.mp hp with hp | hp
  · rw [hp]
    exact needsContent_of_content _ (isContentLine_append_of "- Type: " _ (by decide))
  · rcases List.mem_append.mp hp with hp | hp
    · by_cases hc : a.layers ≠ []
      · rw [if_pos hc] at hp
        rw [List.mem_singleton.mp hp]
        exact needsContent_of_content _ (isContentLine_append_of "- Layers: " _ (by decide))
      · rw [if_neg hc] at hp; cases hp
    · rw [List.mem_singleton.mp hp]; decide

theorem archParts_ok (ap : Option ArchPatterns)
    (h : ∀ a, ap = some a → a.architecture_type ≠ "") :
    headersOkLenient (archParts ap) = true ∧ endsSafe (archParts ap) := by
  cases ap with
  | none => exact ⟨rfl, fun p hp => by cases hp⟩
  | some a =>
    have htype := h a rfl
    simp only [archParts]
    rw [if_pos htype]
    have hshape : (["## Architecture"] ++ ["- Type: " ++ a.architecture_type] ++
        (if a.layers ≠ [] then ["- Layers: " ++ joinComma a.layers] else []) ++ [""]) =
        "## Architecture" :: ("- Type: " ++ a.architecture_type) ::
        ((if a.layers ≠ [] then ["- Layers: " ++ joinComma a.layers] else []) ++ [""]) := by
      simp
    rw [hshape]
    constructor
    · refine headersOkLenient_header_cons _ _ _
        (isContentLine_append_of "- Type: " _ (by decide)) ?_
      exact headersOkLenient_of_all_safe _ (archParts_tail_safe a)
    · intro p hp
      rw [List.getLast?_cons_cons] at hp
      exact archParts_tail_safe a p (mem_of_getLast?_eq _ _ hp)

theorem convParts_tail_safe (c : LanguageConventions) :
    ∀ p ∈ ("- Language: " ++ c.primary_language) ::
      ((if c.naming_conventions.file_naming ≠ "" then
          ["- File naming: " ++ c.naming_conventions.file_naming] else []) ++ [""]),
      needsContent p = false := by
  intro p hp
  rcases List.mem_cons.mp hp with hp | hp
  · rw [hp]
    exact needsContent_of_content _ (isContentLine_append_of "- Language: " _ (by decide))
  · rcases List.mem_append.mp hp with hp | hp
    · by_cases hc : c.naming_conventions.file_naming ≠ ""
      · rw [if_pos hc] at hp
        rw [List.mem_singleton.mp hp]
        exact needsContent_of_content _ (isContentLine_append_of "- File naming: " _ (by decide))
      · rw [if_neg hc] at hp; cases hp
    · rw [List.mem_singleton.mp hp]; decide

theorem convParts_ok (lc : Option LanguageConventions)
    (h : ∀ c, lc = some c → c.primary_language ≠ "") :
    headersOkLenient (convParts lc) = true ∧ endsSafe (convParts lc) := by
  cases lc with
  | none => exact ⟨rfl, fun p hp => by cases hp⟩
  | some c =>
    have hlang := h c rfl
    simp only [convParts]
    rw [if_pos hlang]
    have hshape : (["## Code Conventions"] ++ ["- Language: " ++ c.primary_language] ++
        (if c.naming_conventions.file_naming ≠ "" then
          ["- File naming: " ++ c.naming_conventions.file_naming] else []) ++ [""]) =
        "## Code Conventions" :: ("- Language: " ++ c.primary_language) ::
        ((if c.naming_conventions.file_naming ≠ "" then
          ["- File naming: " ++ c.naming_conventions.file_naming] else []) ++ [""]) := by
      simp
    rw [hshape]
    constructor
    · refine headersOkLenient_header_cons _ _ _
        (isContentLine_append_of "- Language: " _ (by decide)) ?_
      exact headersOkLenient_of_all_safe _ (convParts_tail_safe c)
    · intro p hp
      rw [List.getLast?_cons_cons] at hp
      exact convParts_tail_safe c p (mem_of_getLast?_eq _ _ hp)

theorem depsParts_ok (di : Option DependenciesImpact) :
    headersOkLenient (depsParts di) = true ∧ endsSafe (depsParts di) := by
  cases di with
  | none => exact ⟨rfl, fun p hp => by cases hp⟩
  | some impact =>
    simp only [depsParts]
    by_cases hc : impact.modified_dependencies ≠ []
    · rw [if_pos hc]
      constructor
      · refine headersOkLenient_header_cons _ _ _
          (isContentLine_append_of "- " _ (by decide)) ?_
        refine headersOkLenient_of_all_safe _ (fun p hp => ?_)
        rcases List.mem_cons.mp hp with hp | hp
        · rw [hp]
          exact needsContent_of_content _ (isContentLine_append_of "- " _ (by decide))
        · rcases List.mem_cons.mp hp with hp | hp
          · rw [hp]
            exact needsContent_of_content _
              (isContentLine_append_of "- Breaking changes risk: " _ (by decide))
          · rw [List.mem_singleton.mp hp]; decide
      · intro p hp
        rw [List.getLast?_cons_cons] at hp
        rw [List.getLast?_cons_cons] at hp
        rw [List.getLast?_cons_cons] at hp
        have hpe : p = "" := by
          have h2 : some "" = some p := hp.symm ▸ rfl
          exact (Option.some.inj h2).symm
        rw [hpe]
        decide
    · rw [if_neg hc]
      exact ⟨rfl, fun p hp => by cases hp⟩

theorem codePatternParts_ok (cp : Option CodePatternsInfo)
    (h : ∀ p, cp = some p → p.testing_framework ≠ "") :
    headersOkLenient (codePatternParts cp) = true ∧ endsSafe (codePatternParts cp) := by
  cases cp with
  | none => exact ⟨rfl, fun p hp => by cases hp⟩
  | some pc =>
    have htest := h pc rfl
    simp only [codePatternParts]
    rw [if_pos htest]
    have hshape : (["## Code Patterns"] ++ ["- Testing: " ++ pc.testing_framework] ++ [""]) =
        "## Code Patterns" :: ("- Testing: " ++ pc.testing_framework) :: [""] := by
      simp
    rw [hshape]
    constructor
    · refine headersOkLenient_header_cons _ _ _
        (isContentLine_append_of "- Testing: " _ (by decide)) ?_
      refine headersOkLenient_of_all_safe _ (fun p hp => ?_)
      rcases List.mem_cons.mp hp with hp | hp
      · rw [hp]
        exact needsContent_of_content _ (isContentLine_append_of "- Testing: " _ (by decide))
      · rw [List.mem_singleton.mp hp]; decide
    · intro p hp
      rw [List.getLast?_cons_cons] at hp
      have hpe : p = "" := by
        have h2 : some "" = some p := hp.symm ▸ rfl
        exact (Option.some.inj h2).symm
      rw [hpe]
      decide

/-- C9 (amended): for any formatted context whose populated sections
satisfy the invariants the analyzer guarantees (non-empty architecture
type, primary language and testing framework), every section header
other than "## Related Files" is immediately followed by a content line;
only the Related Files header can stand with no content beneath it. -/
theorem c9_no_empty_headers_amended (ctx : RepoContext)
    (harch : ∀ a, ctx.architectural_patterns = some a → a.architecture_type ≠ "")
    (hconv : ∀ c, ctx.language_specific_conventions = some c → c.primary_language ≠ "")
    (hpat : ∀ p, ctx.code_patterns = some p → p.testing_framework ≠ "") :
    headersOkLenient (format_context_parts ctx) = true := by
  unfold format_context_parts
  have hd_ok : headersOkLenient ["# Repository Context\n"] = true := by decide
  have hd_safe : endsSafe ["# Repository Context\n"] := by
    intro p hp
    have hpe : p = "# Repository Context\n" := by
      have h2 : some "# Repository Context\n" = some p := hp.symm ▸ rfl
      exact (Option.some.inj h2).symm
    rw [hpe]; decide
  have hrel : headersOkLenient (relatedParts ctx.related_files) = true :=
    headersOkLenient_of_all_safe _ (relatedParts_safe _)
  have hrel_safe : endsSafe (relatedParts ctx.related_files) :=
    endsSafe_of_all_safe _ (relatedParts_safe _)
  obtain ⟨harch1, harch2⟩ := archParts_ok _ harch
  obtain ⟨hconv1, hconv2⟩ := convParts_ok _ hconv
  obtain ⟨hdeps1, hdeps2⟩ := depsParts_ok ctx.dependencies_impact
  obtain ⟨hpat1, hpat2⟩ := codePatternParts_ok _ hpat
  have h1 := headersOkLenient_append _ _ hd_ok hrel hd_safe
  have h1s := endsSafe_append _ _ hd_safe hrel_safe
  have h2 := headersOkLenient_append _ _ h1 harch1 h1s
  have h2s := endsSafe_append _ _ h1s harch2
  have h3 := headersOkLenient_append _ _ h2 hconv1 h2s
  have h3s := endsSafe_append _ _ h2s hconv2
  have h4 := headersOkLenient_append _ _ h3 hdeps1 h3s
  have h4s := endsSafe_append _ _ h3s hdeps2
  exact headersOkLenient_append _ _ h4 hpat1 h4s

/-- Witness for c9_no_empty_headers_amended at the concrete context the
analyzer produces for ["main.py"]. -/
theorem c9_no_empty_headers_amended_witness :
    headersOkLenient (format_context_parts ctxPlainMain) = true :=
  c9_no_empty_headers_amended ctxPlainMain
    (fun a ha => by rw [← Option.some.inj ha]; decide)
    (fun c hc => by rw [← Option.some.inj hc]; decide)
    (fun p hp => by rw [← Option.some.inj hp]; decide)

theorem splitSlashAux_cons_ne (c : Char) (hc : ¬ c = '/') (cur l : List Char) :
    splitSlashAux cur (c :: l) = splitSlashAux (c :: cur) l := by
  cases l <;> simp [splitSlashAux, hc]

theorem splitSlashAux_cons_slash (cur l : List Char) :
    splitSlashAux cur ('/' :: l) = cur.reverse :: splitSlashAux [] l := by
  cases l <;> simp [splitSlashAux]

theorem splitSlashAux_ne_nil : ∀ (l cur : List Char), splitSlashAux cur l ≠ []
  | [], cur => by unfold splitSlashAux; simp
  | c :: t, cur => by
    by_cases hc : c = '/'
    · rw [hc, splitSlashAux_cons_slash]
      simp
    · rw [splitSlashAux_cons_ne c hc]
      exact splitSlashAux_ne_nil t (c :: cur)

theorem intercalate_splitSlashAux : ∀ (l cur : List Char),
    List.intercalate ['/'] (splitSlashAux cur l) = cur.reverse ++ l
  | [], cur => by
    unfold splitSlashAux
    simp [List.intercalate]
  | c :: t, cur => by
    by_cases hc : c = '/'
    · subst hc
      rw [splitSlashAux_cons_slash]
      cases hsp : splitSlashAux [] t with
      | nil => exact absurd hsp (splitSlashAux_ne_nil t [])
      | cons z zs =>
        have hIH := intercalate_splitSlashAux t []
        rw [hsp] at hIH
        simp only [List.reverse_nil, List.nil_append] at hIH
        unfold List.intercalate at hIH ⊢
        rw [List.intersperse_cons_cons, List.join_cons, List.join_cons, hIH]
        simp
    · rw [splitSlashAux_cons_ne c hc]
      rw [intercalate_splitSlashAux t (c :: cur)]
      simp

theorem nil_mem_splitSlashAux_of_head (l : List Char) (h : l.head? = some '/') :
    [] ∈ splitSlashAux [] l := by
  cases l with
  | nil => cases h
  | cons c t =>
    have hc : c = '/' := Option.some.inj h
    subst hc
    rw [splitSlashAux_cons_slash]
    exact List.mem_cons_self [] _

theorem nil_mem_splitSlashAux_of_last : ∀ (l : List Char) (cur : List Char),
    l.getLast? = some '/' → [] ∈ splitSlashAux cur l
  | [], _, h => by cases h
  | [c], cur, h => by
    have hc : c = '/' := Option.some.inj h
    subst hc
    rw [splitSlashAux_cons_slash]
    unfold splitSlashAux
    simp
  | c :: d :: t, cur, h => by
    rw [List.getLast?_cons_cons] at h
    by_cases hc : c = '/'
    · subst hc
      rw [splitSlashAux_cons_slash]
      exact List.mem_cons_of_mem _ (nil_mem_splitSlashAux_of_last (d :: t) [] h)
    · rw [splitSlashAux_cons_ne c hc]
      exact nil_mem_splitSlashAux_of_last (d :: t) (c :: cur) h

theorem foldl_normStep_valid (init : Bool) : ∀ (comps : List (List Char)) (acc : List (List Char)),
    (∀ c ∈ comps, c ≠ [] ∧ c ≠ ['.'] ∧ c ≠ ['.', '.']) →
    comps.foldl (normStep init) acc = acc ++ comps
  | [], acc, _ => by simp
  | c :: cs, acc, h => by
    simp only [List.foldl_cons]
    have hc := h c (List.mem_cons_self c cs)
    have hstep : normStep init acc c = acc ++ [c] := by
      unfold normStep
      rw [if_neg (by
        intro hor
        rcases hor with h1 | h1
        · exact hc.1 h1
        · exact hc.2.1 h1)]
      rw [if_pos (Or.inl hc.2.2)]
    rw [hstep, foldl_normStep_valid init cs (acc ++ [c])
      (fun x hx => h x (List.mem_cons_of_mem c hx))]
    simp

theorem normpathChars_id (l : List Char) (hne : l ≠ [])
    (hcomps : ∀ seg ∈ splitSlashAux [] l, seg ≠ [] ∧ seg ≠ ['.'] ∧ seg ≠ ['.', '.']) :
    normpathChars l = l := by
  have hhead : ¬ (l.head? = some '/') := by
    intro hh
    exact (hcomps [] (nil_mem_splitSlashAux_of_head l hh)).1 rfl
  unfold normpathChars
  rw [if_neg hne]
  simp only [foldl_normStep_valid _ _ [] hcomps, List.nil_append,
    intercalate_splitSlashAux l [], List.reverse_nil]
  simp [hhead, hne]

/-- C6: a Python import specifier with exactly two leading dots, seen in
the file "pkg/sub/mod", walks exactly one directory above "pkg/sub" (to
"pkg") before appending the remaining dotted suffix as subdirectories;
the candidate set is then {resolved + ".py", resolved + "/__init__.py"}
filtered by membership in the file set. -/
theorem c6_two_dot_relative_resolution (S : Option (List String)) (rest : String)
    (hhead : rest.data.head? ≠ some '.')
    (hcomps : rest ≠ "" → ∀ seg ∈ splitSlashAux [] (replaceDotSlash rest).data,
      seg ≠ [] ∧ seg ≠ ['.'] ∧ seg ≠ ['.', '.']) :
    resolve_python_module S "pkg/sub/mod" (".." ++ rest) =
      filter_existing_candidates S
        (if rest = "" then ["pkg.py", "pkg/__init__.py"]
         else ["pkg/" ++ replaceDotSlash rest ++ ".py",
               "pkg/" ++ replaceDotSlash rest ++ "/__init__.py"]) := by
  by_cases hrest : rest = ""
  · subst hrest
    rw [if_pos rfl]
    rfl
  · rw [if_neg hrest]
    have h1 : (".." ++ rest).data = '.' :: '.' :: rest.data := by
      rw [String.data_append]
      rfl
    have hne2 : (".." ++ rest) ≠ "" := by
      intro h
      have h2 := congrArg String.data h
      rw [h1] at h2
      cases h2
    have htw : (".." ++ rest).data.takeWhile (fun c => c == '.') = ['.', '.'] := by
      rw [h1]
      rw [List.takeWhile_cons, if_pos (by decide), List.takeWhile_cons, if_pos (by decide)]
      cases hr : rest.data with
      | nil => rfl
      | cons c t =>
        rw [List.takeWhile_cons, if_neg (by
          intro hb
          exact hhead (by rw [hr, (beq_iff_eq.mp hb : c = '.')]; rfl))]
    have hdw : (".." ++ rest).data.dropWhile (fun c => c == '.') = rest.data := by
      rw [h1]
      rw [List.dropWhile_cons, if_pos (by decide), List.dropWhile_cons, if_pos (by decide)]
      cases hr : rest.data with
      | nil => rfl
      | cons c t =>
        rw [List.dropWhile_cons, if_neg (by
          intro hb
          exact hhead (by rw [hr, (beq_iff_eq.mp hb : c = '.')]; rfl))]
    have hmk : String.mk rest.data = rest := by
      cases rest
      rfl
    have hrdshead : (replaceDotSlash rest).data.head? ≠ some '/' := by
      intro hh
      exact ((hcomps hrest) [] (nil_mem_splitSlashAux_of_head _ hh)).1 rfl
    have hjoin1 : joinPath "pkg" (replaceDotSlash rest) = "pkg/" ++ replaceDotSlash rest := by
      unfold joinPath
      rw [if_neg hrdshead]
      rw [if_neg (by decide :
        ¬ (("pkg" : String).data = [] ∨ ("pkg" : String).data.getLast? = some '/'))]
      rw [show ("pkg" : String) ++ "/" = "pkg/" from rfl]
    have hcombined : ("pkg/" ++ replaceDotSlash rest).data =
        'p' :: 'k' :: 'g' :: '/' :: (replaceDotSlash rest).data := by
      rw [String.data_append]
      rfl
    have hsplit : splitSlashAux [] ("pkg/" ++ replaceDotSlash rest).data =
        ['p', 'k', 'g'] :: splitSlashAux [] (replaceDotSlash rest).data := by
      rw [hcombined]
      rw [splitSlashAux_cons_ne 'p' (by decide), splitSlashAux_cons_ne 'k' (by decide),
          splitSlashAux_cons_ne 'g' (by decide), splitSlashAux_cons_slash]
      rfl
    have hnorm : normpath ("pkg/" ++ replaceDotSlash rest) = "pkg/" ++ replaceDotSlash rest := by
      unfold normpath
      rw [normpathChars_id _ (by rw [hcombined]; simp) (by
        rw [hsplit]
        intro seg hseg
        rcases List.mem_cons.mp hseg with h | h
        · rw [h]
          exact ⟨by decide, by decide, by decide⟩
        · exact (hcomps hrest) seg h)]
    have hlast : ("pkg/" ++ replaceDotSlash rest).data.getLast? ≠ some '/' := by
      intro hh
      have hmem := nil_mem_splitSlashAux_of_last _ [] hh
      rw [hsplit] at hmem
      rcases List.mem_cons.mp hmem with h | h
      · cases h
      · exact ((hcomps hrest) [] h).1 rfl
    have hjoin2 : joinPath ("pkg/" ++ replaceDotSlash rest) "__init__.py" =
        "pkg/" ++ replaceDotSlash rest ++ "/__init__.py" := by
      unfold joinPath
      rw [if_neg (by decide : ¬ (("__init__.py" : String).data.head? = some '/'))]
      rw [if_neg (by
        intro hor
        rcases hor with h | h
        · rw [hcombined] at h
          cases h
        · exact hlast h)]
      apply String.ext
      simp [String.data_append]
    simp only [resolve_python_module]
    rw [if_neg hne2]
    rw [if_pos (show (".." ++ rest).data.head? = some '.' by rw [h1]; rfl)]
    rw [htw, hdw, hmk]
    rw [show iterDirname (dirname "pkg/sub/mod") ((['.', '.'] : List Char).length - 1) = "pkg"
      from rfl]
    rw [if_pos hrest]
    rw [hjoin1, hnorm, hjoin2]

/-- Witness for c6_two_dot_relative_resolution at the specifier
"..util.helpers" with "pkg/util/helpers.py" present in the file set. -/
theorem c6_two_dot_relative_resolution_witness :
    resolve_python_module (some ["pkg/util/helpers.py"]) "pkg/sub/mod" (".." ++ "util.helpers") =
      filter_existing_candidates (some ["pkg/util/helpers.py"])
        (if "util.helpers" = "" then ["pkg.py", "pkg/__init__.py"]
         else ["pkg/" ++ replaceDotSlash "util.helpers" ++ ".py",
               "pkg/" ++ replaceDotSlash "util.helpers" ++ "/__init__.py"]) :=
  c6_two_dot_relative_resolution (some ["pkg/util/helpers.py"]) "util.helpers"
    (by decide) (fun _ => by decide)
